import Mathlib

/-!
Verification of the `simd_needle` byte-search library.

Bytes are modelled as natural numbers, byte slices as `List ℕ`.
Each Rust search routine is translated into an executable Lean function
that mirrors the source's control flow; bounded loops are expressed by
structural recursion on an explicit fuel argument, and every wrapper
supplies fuel that provably exceeds the loop's iteration count.
-/

namespace SimdNeedle

/-- The sub-list `hay[i .. i+len)` (shorter if it runs off the end),
mirroring Rust slicing `&hay[i..i+len]`. -/
def slice (hay : List ℕ) (i len : ℕ) : List ℕ := (hay.drop i).take len

/-- `needle` occurs in `hay` starting at offset `i`. -/
def matchAt (hay nd : List ℕ) (i : ℕ) : Prop :=
  i + nd.length ≤ hay.length ∧ ∀ j < nd.length, hay.getD (i + j) 0 = nd.getD j 0

instance : DecidablePred fun i => matchAt hay nd i := fun _ =>
  inferInstanceAs (Decidable (_ ∧ _))

/-- `src/search/naive.rs` — brute force search:
`(0..=last_start).find(|&i| &haystack[i..i + needle.len()] == needle)`. -/
def naive_search (haystack needle : List ℕ) : Option ℕ :=
  if needle.length = 0 ∨ haystack.length < needle.length then none
  else
    (List.range (haystack.length - needle.length + 1)).find?
      (fun i => slice haystack i needle.length == needle)

theorem slice_length (hay : List ℕ) (i len : ℕ) :
    (slice hay i len).length = min len (hay.length - i) := by
  simp [slice]

theorem getD_slice (hay : List ℕ) (i len j : ℕ) (hj : j < len)
    (hb : i + j < hay.length) :
    (slice hay i len).getD j 0 = hay.getD (i + j) 0 := by
  have h1 : j < (slice hay i len).length := by
    rw [slice_length]; omega
  have h2 : i + j < hay.length := hb
  rw [List.getD_eq_getElem _ _ h1, List.getD_eq_getElem _ _ h2]
  simp [slice, Nat.add_comm]

theorem slice_eq_iff_matchAt (hay nd : List ℕ) (i : ℕ) (hnd : nd.length ≠ 0) :
    slice hay i nd.length = nd ↔ matchAt hay nd i := by
  constructor
  · intro h
    have hlen : (slice hay i nd.length).length = nd.length := by rw [h]
    rw [slice_length] at hlen
    have hb : i + nd.length ≤ hay.length := by omega
    refine ⟨hb, fun j hj => ?_⟩
    rw [← getD_slice hay i nd.length j hj (by omega), h]
  · intro ⟨hb, hj⟩
    apply List.ext_getElem
    · rw [slice_length]; omega
    · intro j h1 h2
      have hj' := hj j h2
      rw [List.getD_eq_getElem _ _ (by omega : i + j < hay.length),
        List.getD_eq_getElem _ _ h2] at hj'
      simpa [slice, Nat.add_comm] using hj'

theorem find?_range_eq_some :
    ∀ (n : ℕ) (p : ℕ → Bool) (i : ℕ),
      (List.range n).find? p = some i ↔
        i < n ∧ p i = true ∧ ∀ j < i, p j = false := by
  intro n
  induction n with
  | zero => intro p i; simp
  | succ n ih =>
    intro p i
    rw [List.range_succ_eq_map]
    cases hp : p 0 with
    | true =>
      rw [List.find?_cons_of_pos _ hp]
      constructor
      · rintro ⟨rfl⟩
        exact ⟨Nat.succ_pos n, hp, by omega⟩
      · rintro ⟨-, hi, hmin⟩
        by_contra hne
        have h0 : 0 < i := by
          rcases Nat.eq_zero_or_pos i with h | h
          · subst h; simp at hne
          · exact h
        have := hmin 0 h0
        rw [hp] at this
        simp at this
    | false =>
      rw [List.find?_cons_of_neg _ (by simp [hp]), List.find?_map]
      constructor
      · intro h
        rcases Option.map_eq_some'.mp h with ⟨i', hfind, rfl⟩
        rcases (ih (p ∘ Nat.succ) i').mp hfind with ⟨h1, h2, h3⟩
        refine ⟨by omega, h2, ?_⟩
        intro j hj
        cases j with
        | zero => exact hp
        | succ j => exact h3 j (by omega)
      · rintro ⟨h1, h2, h3⟩
        cases i with
        | zero => rw [hp] at h2; exact absurd h2 Bool.false_ne_true
        | succ i =>
          rw [Option.map_eq_some']
          refine ⟨i, (ih (p ∘ Nat.succ) i).mpr ⟨by omega, h2, ?_⟩, rfl⟩
          intro j hj
          exact h3 (j + 1) (by omega)

theorem matchAt_false_of_short (hay nd : List ℕ) (i : ℕ)
    (h : hay.length < i + nd.length) : ¬ matchAt hay nd i := by
  intro ⟨hb, _⟩; omega

theorem naive_search_eq_some (hay nd : List ℕ) (i : ℕ) :
    naive_search hay nd = some i ↔
      nd ≠ [] ∧ matchAt hay nd i ∧ ∀ j < i, ¬ matchAt hay nd j := by
  unfold naive_search
  split
  · rename_i hguard
    refine ⟨fun h => absurd h (by simp), fun h => ?_⟩
    obtain ⟨hnd, hm, -⟩ := h
    exfalso
    rcases hguard with h | h
    · exact hnd (List.length_eq_zero.mp h)
    · exact matchAt_false_of_short hay nd i (by omega) hm
  · rename_i hguard
    push_neg at hguard
    obtain ⟨hnd0, hlen⟩ := hguard
    have hnd : nd ≠ [] := fun h => hnd0 (by simp [h])
    have hpiff : ∀ j, ((slice hay j nd.length == nd) = true) ↔ matchAt hay nd j := by
      intro j
      rw [beq_iff_eq]
      exact slice_eq_iff_matchAt hay nd j hnd0
    rw [find?_range_eq_some]
    constructor
    · rintro ⟨h1, h2, h3⟩
      refine ⟨hnd, (hpiff i).mp h2, fun j hj => ?_⟩
      intro hm
      have := h3 j hj
      exact (Bool.eq_false_iff.mp this) ((hpiff j).mpr hm)
    · rintro ⟨-, hm, hmin⟩
      refine ⟨by have := hm.1; omega, (hpiff i).mpr hm, fun j hj => ?_⟩
      rw [Bool.eq_false_iff]
      intro hj'
      exact hmin j hj ((hpiff j).mp hj')

theorem naive_search_eq_none (hay nd : List ℕ) :
    naive_search hay nd = none ↔ nd = [] ∨ ∀ i, ¬ matchAt hay nd i := by
  unfold naive_search
  split
  · rename_i hguard
    refine ⟨fun _ => ?_, fun _ => rfl⟩
    rcases hguard with h | h
    · exact Or.inl (List.length_eq_zero.mp h)
    · exact Or.inr fun i => matchAt_false_of_short hay nd i (by omega)
  · rename_i hguard
    push_neg at hguard
    obtain ⟨hnd0, hlen⟩ := hguard
    rw [List.find?_eq_none]
    constructor
    · intro h
      refine Or.inr fun i hm => ?_
      have hi : i ∈ List.range (hay.length - nd.length + 1) := by
        rw [List.mem_range]
        have := hm.1; omega
      have := h i hi
      rw [beq_iff_eq] at this
      exact this ((slice_eq_iff_matchAt hay nd i hnd0).mpr hm)
    · rintro (h | h)
      · exact absurd (congrArg List.length h) (by simpa using hnd0)
      · intro i _
        rw [beq_iff_eq]
        intro hs
        exact h i ((slice_eq_iff_matchAt hay nd i hnd0).mp hs)

/-! ### Hex decoding (`src/hex.rs`) -/

/-- Errors from `src/hex.rs`; the invalid character is carried as its byte value. -/
inductive FromHexError where
  | InvalidHexCharacter (c : ℕ) (index : ℕ)
  | OddLength
  | InvalidStringLength
deriving DecidableEq

/-- `src/hex.rs val` — hex digit to value, with the source's arm order
(`A..=F`, then `a..=f`, then `0..=9`). -/
def val (c idx : ℕ) : Except FromHexError ℕ :=
  if 65 ≤ c ∧ c ≤ 70 then Except.ok (c - 65 + 10)
  else if 97 ≤ c ∧ c ≤ 102 then Except.ok (c - 97 + 10)
  else if 48 ≤ c ∧ c ≤ 57 then Except.ok (c - 48)
  else Except.error (FromHexError.InvalidHexCharacter c idx)

/-- The `hex.chunks(2).enumerate().map(...).collect()` pipeline of
`try_from_hex`: pairs are processed left to right, the first error wins,
and pair `i` contributes `val(pair[0], 2i)? << 4 | val(pair[1], 2i+1)?`.
The singleton case is unreachable because `decode` checks evenness first. -/
def decodePairs : List ℕ → ℕ → Except FromHexError (List ℕ)
  | [], _ => Except.ok []
  | a :: b :: rest, i =>
    match val a (2 * i) with
    | Except.error e => Except.error e
    | Except.ok hi =>
      match val b (2 * i + 1) with
      | Except.error e => Except.error e
      | Except.ok lo =>
        match decodePairs rest (i + 1) with
        | Except.error e => Except.error e
        | Except.ok tl => Except.ok ((hi <<< 4 ||| lo) :: tl)
  | [_], _ => Except.error FromHexError.InvalidStringLength

/-- `src/hex.rs decode` / `try_from_hex`. -/
def decode (s : List ℕ) : Except FromHexError (List ℕ) :=
  if s.length % 2 ≠ 0 then Except.error FromHexError.OddLength
  else decodePairs s 0

/-- ASCII hex digit (0-9, a-f, A-F). -/
def isHexDigit (c : ℕ) : Prop :=
  (48 ≤ c ∧ c ≤ 57) ∨ (97 ≤ c ∧ c ≤ 102) ∨ (65 ≤ c ∧ c ≤ 70)

instance : DecidablePred isHexDigit := fun _ =>
  inferInstanceAs (Decidable (_ ∨ _))

/-- The numeric value of a hex digit. -/
def hexVal (c : ℕ) : ℕ :=
  if 65 ≤ c ∧ c ≤ 70 then c - 65 + 10
  else if 97 ≤ c ∧ c ≤ 102 then c - 97 + 10
  else c - 48

/-- The byte list produced from an all-hex even-length input. -/
def hexBytes : List ℕ → List ℕ
  | [] => []
  | a :: b :: rest => (16 * hexVal a + hexVal b) :: hexBytes rest
  | [_] => []

theorem val_ok_iff (c idx v : ℕ) :
    val c idx = Except.ok v ↔ isHexDigit c ∧ v = hexVal c := by
  unfold val isHexDigit hexVal
  split <;> rename_i h1
  · simp [h1]; omega
  · split <;> rename_i h2
    · simp [h1, h2]; omega
    · split <;> rename_i h3
      · simp [h1, h2, h3]; omega
      · simp [h1, h2, h3]

theorem val_error_iff (c idx : ℕ) (e : FromHexError) :
    val c idx = Except.error e ↔
      ¬ isHexDigit c ∧ e = FromHexError.InvalidHexCharacter c idx := by
  unfold val isHexDigit
  split <;> rename_i h1
  · simp [h1]
  · split <;> rename_i h2
    · simp [h1, h2]
    · split <;> rename_i h3
      · simp [h1, h2, h3]
      · constructor
        · rintro ⟨rfl⟩; exact ⟨by tauto, rfl⟩
        · rintro ⟨-, rfl⟩; rfl

theorem hex_shift_or_aux : ∀ hi < 16, ∀ lo < 16, hi <<< 4 ||| lo = 16 * hi + lo := by
  decide

theorem hex_shift_or (hi lo : ℕ) (h1 : hi < 16) (h2 : lo < 16) :
    hi <<< 4 ||| lo = 16 * hi + lo :=
  hex_shift_or_aux hi h1 lo h2

theorem hexVal_lt (c : ℕ) (h : isHexDigit c) : hexVal c < 16 := by
  unfold isHexDigit at h
  unfold hexVal
  split
  · omega
  · split <;> omega

theorem decodePairs_ok_of_hex :
    ∀ (s : List ℕ) (i0 : ℕ), s.length % 2 = 0 → (∀ c ∈ s, isHexDigit c) →
      decodePairs s i0 = Except.ok (hexBytes s) := by
  intro s
  induction s using hexBytes.induct with
  | case1 => intro i0 _ _; rfl
  | case2 a b rest ih =>
    intro i0 hlen hall
    have ha : isHexDigit a := hall a (by simp)
    have hb : isHexDigit b := hall b (by simp)
    have hva : val a (2 * i0) = Except.ok (hexVal a) :=
      (val_ok_iff _ _ _).mpr ⟨ha, rfl⟩
    have hvb : val b (2 * i0 + 1) = Except.ok (hexVal b) :=
      (val_ok_iff _ _ _).mpr ⟨hb, rfl⟩
    have hrest : decodePairs rest (i0 + 1) = Except.ok (hexBytes rest) := by
      apply ih
      · simp only [List.length_cons] at hlen; omega
      · intro c hc; exact hall c (by simp [hc])
    simp only [decodePairs, hva, hvb, hrest, hexBytes]
    rw [hex_shift_or _ _ (hexVal_lt a ha) (hexVal_lt b hb)]
  | case3 a =>
    intro i0 hlen _
    simp at hlen

theorem decodePairs_ok_inv :
    ∀ (s : List ℕ) (i0 : ℕ) (b : List ℕ), decodePairs s i0 = Except.ok b →
      (∀ c ∈ s, isHexDigit c) ∧ b = hexBytes s := by
  intro s
  induction s using hexBytes.induct with
  | case1 =>
    intro i0 b h
    obtain ⟨rfl⟩ : Except.ok ([] : List ℕ) = Except.ok b := h
    exact ⟨by simp, rfl⟩
  | case2 a b rest ih =>
    intro i0 bb h
    simp only [decodePairs] at h
    cases hva : val a (2 * i0) with
    | error e => rw [hva] at h; exact absurd h (by simp)
    | ok hi =>
      rw [hva] at h
      cases hvb : val b (2 * i0 + 1) with
      | error e => rw [hvb] at h; exact absurd h (by simp)
      | ok lo =>
        rw [hvb] at h
        cases hrest : decodePairs rest (i0 + 1) with
        | error e => rw [hrest] at h; exact absurd h (by simp)
        | ok tl =>
          rw [hrest] at h
          obtain ⟨rfl⟩ : Except.ok ((hi <<< 4 ||| lo) :: tl) = Except.ok bb := h
          obtain ⟨ha, rfl⟩ := (val_ok_iff _ _ _).mp hva
          obtain ⟨hb, rfl⟩ := (val_ok_iff _ _ _).mp hvb
          obtain ⟨hall, rfl⟩ := ih (i0 + 1) tl hrest
          refine ⟨?_, ?_⟩
          · intro c hc
            simp only [List.mem_cons] at hc
            rcases hc with rfl | rfl | hc
            · exact ha
            · exact hb
            · exact hall c hc
          · rw [hexBytes, hex_shift_or _ _ (hexVal_lt a ha) (hexVal_lt b hb)]
  | case3 a =>
    intro i0 b h
    exact absurd h (by simp [decodePairs])

theorem hexBytes_length :
    ∀ s : List ℕ, s.length % 2 = 0 → (hexBytes s).length = s.length / 2 := by
  intro s
  induction s using hexBytes.induct with
  | case1 => intro _; rfl
  | case2 a b rest ih =>
    intro h
    simp only [List.length_cons] at h ⊢
    rw [hexBytes, List.length_cons, ih (by omega)]
    omega
  | case3 a => intro h; simp at h

theorem hexBytes_getD :
    ∀ s : List ℕ, ∀ i < (hexBytes s).length,
      (hexBytes s).getD i 0 =
        16 * hexVal (s.getD (2 * i) 0) + hexVal (s.getD (2 * i + 1) 0) := by
  intro s
  induction s using hexBytes.induct with
  | case1 => intro i hi; simp [hexBytes] at hi
  | case2 a b rest ih =>
    intro i hi
    cases i with
    | zero => rfl
    | succ i =>
      have h1 : (a :: b :: rest).getD (2 * (i + 1)) 0 = rest.getD (2 * i) 0 := by
        have e : 2 * (i + 1) = 2 * i + 1 + 1 := by ring
        rw [e, List.getD_cons_succ, List.getD_cons_succ]
      have h2 : (a :: b :: rest).getD (2 * (i + 1) + 1) 0 = rest.getD (2 * i + 1) 0 := by
        have e : 2 * (i + 1) + 1 = 2 * i + 1 + 1 + 1 := by ring
        rw [e, List.getD_cons_succ, List.getD_cons_succ]
      rw [hexBytes, List.getD_cons_succ, h1, h2]
      rw [hexBytes, List.length_cons] at hi
      exact ih i (by omega)
  | case3 a => intro i hi; simp [hexBytes] at hi

theorem decodePairs_error_at :
    ∀ (s : List ℕ) (i0 k : ℕ), s.length % 2 = 0 → k < s.length →
      ¬ isHexDigit (s.getD k 0) → (∀ j < k, isHexDigit (s.getD j 0)) →
      decodePairs s i0 =
        Except.error (FromHexError.InvalidHexCharacter (s.getD k 0) (2 * i0 + k)) := by
  intro s
  induction s using hexBytes.induct with
  | case1 => intro i0 k _ hk _ _; simp at hk
  | case2 a b rest ih =>
    intro i0 k hlen hk hbad hmin
    match k with
    | 0 =>
      have hva : val a (2 * i0) =
          Except.error (FromHexError.InvalidHexCharacter a (2 * i0)) :=
        (val_error_iff _ _ _).mpr ⟨by simpa using hbad, rfl⟩
      simp only [decodePairs, hva]
      simp
    | 1 =>
      have ha : isHexDigit a := by simpa using hmin 0 (by omega)
      have hva : val a (2 * i0) = Except.ok (hexVal a) :=
        (val_ok_iff _ _ _).mpr ⟨ha, rfl⟩
      have hvb : val b (2 * i0 + 1) =
          Except.error (FromHexError.InvalidHexCharacter b (2 * i0 + 1)) :=
        (val_error_iff _ _ _).mpr ⟨by simpa using hbad, rfl⟩
      simp only [decodePairs, hva, hvb]
      simp
    | k + 2 =>
      have ha : isHexDigit a := by simpa using hmin 0 (by omega)
      have hb : isHexDigit b := by simpa using hmin 1 (by omega)
      have hva : val a (2 * i0) = Except.ok (hexVal a) :=
        (val_ok_iff _ _ _).mpr ⟨ha, rfl⟩
      have hvb : val b (2 * i0 + 1) = Except.ok (hexVal b) :=
        (val_ok_iff _ _ _).mpr ⟨hb, rfl⟩
      have hrest : decodePairs rest (i0 + 1) =
          Except.error (FromHexError.InvalidHexCharacter
            (rest.getD k 0) (2 * (i0 + 1) + k)) := by
        apply ih
        · simp only [List.length_cons] at hlen; omega
        · simp only [List.length_cons] at hk; omega
        · simpa using hbad
        · intro j hj
          simpa using hmin (j + 2) (by omega)
      simp only [decodePairs, hva, hvb, hrest]
      have : 2 * (i0 + 1) + k = 2 * i0 + (k + 2) := by ring
      rw [this]
      simp
  | case3 a =>
    intro i0 k hlen _ _ _
    simp at hlen

theorem exists_least_bad (s : List ℕ) (h : ¬ ∀ c ∈ s, isHexDigit c) :
    ∃ k, (k < s.length ∧ ¬ isHexDigit (s.getD k 0)) ∧
      ∀ j < k, isHexDigit (s.getD j 0) := by
  push_neg at h
  obtain ⟨c, hc, hbad⟩ := h
  obtain ⟨n, hn, rfl⟩ := List.mem_iff_getElem.mp hc
  have hP : ∃ k, k < s.length ∧ ¬ isHexDigit (s.getD k 0) :=
    ⟨n, hn, by rwa [List.getD_eq_getElem _ _ hn]⟩
  refine ⟨Nat.find hP, Nat.find_spec hP, fun j hj => ?_⟩
  have hmin := Nat.find_min hP hj
  by_contra hbadj
  have hjl : j < s.length := lt_trans hj (Nat.find_spec hP).1
  exact hmin ⟨hjl, hbadj⟩

theorem decode_ok_of_hex (s : List ℕ) (h1 : s.length % 2 = 0)
    (h2 : ∀ c ∈ s, isHexDigit c) : decode s = Except.ok (hexBytes s) := by
  unfold decode
  rw [if_neg (by omega)]
  exact decodePairs_ok_of_hex s 0 h1 h2

/-- C9: `hex::decode` succeeds exactly on even-length all-hex-digit inputs,
producing half-length output with `b[i] = 16*val(s[2i]) + val(s[2i+1])`;
odd length gives the odd-length error, and an even-length input with an
invalid byte gives `InvalidHexCharacter` carrying that byte and the smallest
invalid index. As a Lean function it is pure and total by construction. -/
theorem hex_decode_characterization :
    (∀ s : List ℕ, decode s = Except.error FromHexError.OddLength ↔ s.length % 2 = 1) ∧
    (∀ s : List ℕ, (∃ b, decode s = Except.ok b) ↔
      (s.length % 2 = 0 ∧ ∀ c ∈ s, isHexDigit c)) ∧
    (∀ s b, decode s = Except.ok b →
      b.length = s.length / 2 ∧
      ∀ i < b.length,
        b.getD i 0 = 16 * hexVal (s.getD (2 * i) 0) + hexVal (s.getD (2 * i + 1) 0)) ∧
    (∀ s k, s.length % 2 = 0 → k < s.length → ¬ isHexDigit (s.getD k 0) →
      (∀ j < k, isHexDigit (s.getD j 0)) →
      decode s = Except.error (FromHexError.InvalidHexCharacter (s.getD k 0) k)) := by
  have herr : ∀ s k, s.length % 2 = 0 → k < s.length → ¬ isHexDigit (s.getD k 0) →
      (∀ j < k, isHexDigit (s.getD j 0)) →
      decode s = Except.error (FromHexError.InvalidHexCharacter (s.getD k 0) k) := by
    intro s k h1 h2 h3 h4
    unfold decode
    rw [if_neg (by omega)]
    simpa using decodePairs_error_at s 0 k h1 h2 h3 h4
  have hok : ∀ s b, decode s = Except.ok b →
      s.length % 2 = 0 ∧ (∀ c ∈ s, isHexDigit c) ∧ b = hexBytes s := by
    intro s b h
    unfold decode at h
    by_cases hpar : s.length % 2 = 0
    · rw [if_neg (by omega)] at h
      obtain ⟨hall, rfl⟩ := decodePairs_ok_inv s 0 b h
      exact ⟨hpar, hall, rfl⟩
    · rw [if_pos (by omega)] at h
      exact absurd h (by simp)
  refine ⟨?_, ?_, ?_, herr⟩
  · intro s
    constructor
    · intro h
      by_contra hodd
      have hpar : s.length % 2 = 0 := by omega
      by_cases hall : ∀ c ∈ s, isHexDigit c
      · rw [decode_ok_of_hex s hpar hall] at h
        exact absurd h (by simp)
      · obtain ⟨k, ⟨hk1, hk2⟩, hk3⟩ := exists_least_bad s hall
        rw [herr s k hpar hk1 hk2 hk3] at h
        exact absurd h (by simp)
    · intro h
      unfold decode
      rw [if_pos (by omega)]
  · intro s
    constructor
    · rintro ⟨b, hb⟩
      obtain ⟨h1, h2, -⟩ := hok s b hb
      exact ⟨h1, h2⟩
    · rintro ⟨h1, h2⟩
      exact ⟨hexBytes s, decode_ok_of_hex s h1 h2⟩
  · intro s b h
    obtain ⟨h1, -, rfl⟩ := hok s b h
    exact ⟨hexBytes_length s h1, hexBytes_getD s⟩

/-- Witness: the C9 characterization applied at concrete inputs
("0" odd; "0G" invalid at index 1; "4A" decodes to [74]). -/
theorem hex_decode_characterization_witness :
    decode [48] = Except.error FromHexError.OddLength ∧
    decode [48, 71] = Except.error (FromHexError.InvalidHexCharacter 71 1) ∧
    (∃ b, decode [52, 65] = Except.ok b) :=
  ⟨(hex_decode_characterization.1 [48]).mpr (by decide),
   by
    have := hex_decode_characterization.2.2.2 [48, 71] 1 (by decide) (by decide)
      (by decide) (by decide)
    simpa using this,
   (hex_decode_characterization.2.1 [52, 65]).mpr ⟨by decide, by decide⟩⟩

/-! ### First-match specification shared by all matchers -/

/-- `r` is the leftmost match of `nd` in `hay` at an offset `≥ lo`
(`none` when there is none). -/
def FirstMatchFrom (hay nd : List ℕ) (lo : ℕ) (r : Option ℕ) : Prop :=
  (∀ p, r = some p →
    lo ≤ p ∧ matchAt hay nd p ∧ ∀ j, lo ≤ j → j < p → ¬ matchAt hay nd j) ∧
  (r = none → ∀ j, lo ≤ j → ¬ matchAt hay nd j)

theorem FirstMatchFrom.unique (hay nd : List ℕ) (lo : ℕ) (r1 r2 : Option ℕ)
    (h1 : FirstMatchFrom hay nd lo r1) (h2 : FirstMatchFrom hay nd lo r2) :
    r1 = r2 := by
  cases r1 with
  | none =>
    cases r2 with
    | none => rfl
    | some p =>
      obtain ⟨hp1, hp2, -⟩ := h2.1 p rfl
      exact absurd hp2 (h1.2 rfl p hp1)
  | some p =>
    obtain ⟨hp1, hp2, hp3⟩ := h1.1 p rfl
    cases r2 with
    | none => exact absurd hp2 (h2.2 rfl p hp1)
    | some q =>
      obtain ⟨hq1, hq2, hq3⟩ := h2.1 q rfl
      rcases Nat.lt_trichotomy p q with h | h | h
      · exact absurd hp2 (hq3 p hp1 h)
      · rw [h]
      · exact absurd hq2 (hp3 q hq1 h)

theorem FirstMatchFrom.cons (hay nd : List ℕ) (lo : ℕ) (r : Option ℕ)
    (hlo : ¬ matchAt hay nd lo) (h : FirstMatchFrom hay nd (lo + 1) r) :
    FirstMatchFrom hay nd lo r := by
  constructor
  · intro p hp
    obtain ⟨h1, h2, h3⟩ := h.1 p hp
    refine ⟨by omega, h2, fun j hj1 hj2 => ?_⟩
    rcases Nat.eq_or_lt_of_le hj1 with rfl | hj1
    · exact hlo
    · exact h3 j hj1 hj2
  · intro hr j hj
    rcases Nat.eq_or_lt_of_le hj with rfl | hj'
    · exact hlo
    · exact h.2 hr j hj'

theorem FirstMatchFrom.none_of_high (hay nd : List ℕ) (lo : ℕ)
    (h : hay.length < lo + nd.length) : FirstMatchFrom hay nd lo none := by
  refine ⟨fun p hp => by simp at hp, fun _ j hj => ?_⟩
  exact matchAt_false_of_short hay nd j (by omega)

theorem naive_FirstMatchFrom (hay nd : List ℕ) (hnd : nd ≠ []) :
    FirstMatchFrom hay nd 0 (naive_search hay nd) := by
  constructor
  · intro p hp
    obtain ⟨-, h2, h3⟩ := (naive_search_eq_some hay nd p).mp hp
    exact ⟨Nat.zero_le p, h2, fun j _ hj => h3 j hj⟩
  · intro hr j _
    rcases (naive_search_eq_none hay nd).mp hr with h | h
    · exact absurd h hnd
    · exact h j

/-- A matcher that agrees with the brute-force guard and produces the
leftmost match in the main regime equals `naive_search`. -/
theorem eq_naive_of_FirstMatchFrom (f : List ℕ → List ℕ → Option ℕ)
    (hguard : ∀ hay nd, (nd.length = 0 ∨ hay.length < nd.length) → f hay nd = none)
    (hmain : ∀ hay nd, nd.length ≠ 0 → nd.length ≤ hay.length →
      FirstMatchFrom hay nd 0 (f hay nd)) :
    ∀ hay nd, f hay nd = naive_search hay nd := by
  intro hay nd
  by_cases h : nd.length = 0 ∨ hay.length < nd.length
  · rw [hguard hay nd h]
    unfold naive_search
    rw [if_pos h]
  · push_neg at h
    obtain ⟨h1, h2⟩ := h
    have hnd : nd ≠ [] := fun hh => h1 (by simp [hh])
    exact FirstMatchFrom.unique hay nd 0 _ _ (hmain hay nd h1 h2)
      (naive_FirstMatchFrom hay nd hnd)

theorem matchAt_first_byte (hay nd : List ℕ) (j : ℕ) (hnd : nd ≠ [])
    (h : matchAt hay nd j) : hay.getD j 0 = nd.getD 0 0 := by
  have := h.2 0 (by cases nd with | nil => exact absurd rfl hnd | cons a l => simp)
  simpa using this

theorem getD_drop (l : List ℕ) (i j : ℕ) :
    (l.drop i).getD j 0 = l.getD (i + j) 0 := by
  by_cases h : i + j < l.length
  · rw [List.getD_eq_getElem _ _ (by simp; omega), List.getD_eq_getElem _ _ h]
    simp
  · rw [List.getD_eq_default _ _ (by simp; omega), List.getD_eq_default _ _ (by omega)]

/-! ### Portable vectorized search (`src/search/simd.rs`) -/

/-- Lane count for the build without AVX2/AVX-512 (`SIMD_LANES = 16`). -/
def SIMD_LANES : ℕ := 16

def SIMD_BOOST : ℕ := 4

def SIMD_SIZE_BOOSTED : ℕ := min (SIMD_LANES * SIMD_BOOST) 128

/-- `simd_scan_first_byte::<N>`: while `i + N ≤ len`, compare the `N`-byte
chunk against the splatted byte — the equality bitmask and its lowest set
bit (`trailing_zeros`) are rendered as `findIdx?` on the chunk — then scan
the tail with `position`. -/
def simdScanFirstByte (N : ℕ) (hay : List ℕ) (b : ℕ) : ℕ → ℕ → Option ℕ
  | 0, _ => none
  | fuel + 1, i =>
    if i + N ≤ hay.length then
      match (slice hay i N).findIdx? (fun x => x == b) with
      | some off => some (i + off)
      | none => simdScanFirstByte N hay b fuel (i + N)
    else
      ((hay.drop i).findIdx? (fun x => x == b)).map (fun pos => i + pos)

/-- The candidate loop of `simd_search`: find the next occurrence of the
needle's first byte, verify the full needle there, else resume one past
the candidate. -/
def simdSearchLoop (N : ℕ) (hay nd : List ℕ) : ℕ → ℕ → Option ℕ
  | 0, _ => none
  | fuel + 1, start =>
    if start + nd.length ≤ hay.length then
      match simdScanFirstByte N (hay.drop start) (nd.getD 0 0) (hay.length + 1) 0 with
      | some off =>
        if hay.length < start + off + nd.length then none
        else if slice hay (start + off) nd.length = nd then some (start + off)
        else simdSearchLoop N hay nd fuel (start + off + 1)
      | none => none
    else none

/-- `src/search/simd.rs simd_search`. -/
def simd_search (hay nd : List ℕ) : Option ℕ :=
  if nd.length = 0 ∨ hay.length < nd.length then none
  else if nd.length = 1 then
    simdScanFirstByte SIMD_SIZE_BOOSTED hay (nd.getD 0 0) (hay.length + 1) 0
  else simdSearchLoop SIMD_SIZE_BOOSTED hay nd (hay.length + 1) 0

/-- `r` is the leftmost occurrence of byte `b` in `hay` at an index `≥ lo`. -/
def FirstByteFrom (hay : List ℕ) (b lo : ℕ) (r : Option ℕ) : Prop :=
  (∀ p, r = some p →
    lo ≤ p ∧ p < hay.length ∧ hay.getD p 0 = b ∧
      ∀ j, lo ≤ j → j < p → hay.getD j 0 ≠ b) ∧
  (r = none → ∀ j, lo ≤ j → j < hay.length → hay.getD j 0 ≠ b)

theorem findIdx?_beq_char (l : List ℕ) (b : ℕ) :
    (∀ k, l.findIdx? (fun x => x == b) = some k →
      k < l.length ∧ l.getD k 0 = b ∧ ∀ j < k, l.getD j 0 ≠ b) ∧
    (l.findIdx? (fun x => x == b) = none → ∀ j < l.length, l.getD j 0 ≠ b) := by
  constructor
  · intro k hk
    obtain ⟨h, h1, h2⟩ := List.findIdx?_eq_some_iff_getElem.mp hk
    refine ⟨h, ?_, fun j hj => ?_⟩
    · rw [List.getD_eq_getElem _ _ h]
      exact beq_iff_eq.mp (by simpa using h1)
    · rw [List.getD_eq_getElem _ _ (by omega)]
      intro he
      exact (h2 j hj) (by simpa using beq_iff_eq.mpr he)
  · intro hn j hj
    rw [List.findIdx?_eq_none_iff] at hn
    have := hn (l.getD j 0) (by rw [List.getD_eq_getElem _ _ hj]; exact List.getElem_mem _)
    intro he
    rw [he] at this
    simp at this

theorem simdScanFirstByte_spec (N : ℕ) (hN : 1 ≤ N) (hay : List ℕ) (b : ℕ) :
    ∀ (fuel i : ℕ), hay.length + 1 ≤ fuel + i →
      FirstByteFrom hay b i (simdScanFirstByte N hay b fuel i) := by
  intro fuel
  induction fuel with
  | zero =>
    intro i hi
    refine ⟨fun p hp => by simp [simdScanFirstByte] at hp, fun _ j hj1 hj2 => ?_⟩
    omega
  | succ fuel ih =>
    intro i hi
    rw [simdScanFirstByte]
    split
    · rename_i hin
      cases hfi : (slice hay i N).findIdx? (fun x => x == b) with
      | some off =>
        obtain ⟨h1, h2, h3⟩ := (findIdx?_beq_char (slice hay i N) b).1 off hfi
        rw [slice_length] at h1
        have hoff : i + off < hay.length := by omega
        rw [getD_slice hay i N off (by omega) hoff] at h2
        refine ⟨fun p hp => ?_, fun hc => by simp at hc⟩
        obtain ⟨rfl⟩ : some (i + off) = some p := hp
        refine ⟨by omega, hoff, h2, fun j hj1 hj2 => ?_⟩
        have hjo : j - i < off := by omega
        have := h3 (j - i) hjo
        rw [getD_slice hay i N (j - i) (by omega) (by omega)] at this
        have hij : i + (j - i) = j := by omega
        rwa [hij] at this
      | none =>
        have hnone := (findIdx?_beq_char (slice hay i N) b).2 hfi
        have hchunk : ∀ j, i ≤ j → j < i + N → hay.getD j 0 ≠ b := by
          intro j hj1 hj2
          have := hnone (j - i) (by rw [slice_length]; omega)
          rw [getD_slice hay i N (j - i) (by omega) (by omega)] at this
          have hij : i + (j - i) = j := by omega
          rwa [hij] at this
        have hrec := ih (i + N) (by omega)
        constructor
        · intro p hp
          obtain ⟨h1, h2, h3, h4⟩ := hrec.1 p hp
          refine ⟨by omega, h2, h3, fun j hj1 hj2 => ?_⟩
          by_cases hjn : j < i + N
          · exact hchunk j hj1 hjn
          · exact h4 j (by omega) hj2
        · intro hr j hj1 hj2
          by_cases hjn : j < i + N
          · exact hchunk j hj1 hjn
          · exact hrec.2 hr j (by omega) hj2
    · rename_i hin
      cases hfi : (hay.drop i).findIdx? (fun x => x == b) with
      | some off =>
        obtain ⟨h1, h2, h3⟩ := (findIdx?_beq_char (hay.drop i) b).1 off hfi
        rw [List.length_drop] at h1
        rw [getD_drop] at h2
        refine ⟨fun p hp => ?_, fun hc => by simp at hc⟩
        obtain rfl : i + off = p := by simpa using hp
        refine ⟨by omega, by omega, h2, fun j hj1 hj2 => ?_⟩
        have := h3 (j - i) (by omega)
        rw [getD_drop] at this
        have hij : i + (j - i) = j := by omega
        rwa [hij] at this
      | none =>
        refine ⟨fun p hp => by simp at hp, fun _ j hj1 hj2 => ?_⟩
        have := (findIdx?_beq_char (hay.drop i) b).2 hfi (j - i)
          (by rw [List.length_drop]; omega)
        rw [getD_drop] at this
        have hij : i + (j - i) = j := by omega
        rwa [hij] at this

theorem simdSearchLoop_spec (N : ℕ) (hN : 1 ≤ N) (hay nd : List ℕ)
    (hnd : nd ≠ []) :
    ∀ (fuel start : ℕ), hay.length + 1 ≤ fuel + start →
      FirstMatchFrom hay nd start (simdSearchLoop N hay nd fuel start) := by
  have hm1 : 1 ≤ nd.length := by
    cases nd with
    | nil => exact absurd rfl hnd
    | cons a l => simp
  intro fuel
  induction fuel with
  | zero =>
    intro start hs
    exact FirstMatchFrom.none_of_high hay nd start (by omega)
  | succ fuel ih =>
    intro start hs
    rw [simdSearchLoop]
    by_cases hsm : start + nd.length ≤ hay.length
    · rw [if_pos hsm]
      have hscan := simdScanFirstByte_spec N hN (hay.drop start) (nd.getD 0 0)
        (hay.length + 1) 0 (by rw [List.length_drop]; omega)
      cases hfs : simdScanFirstByte N (hay.drop start) (nd.getD 0 0)
          (hay.length + 1) 0 with
      | some off =>
        dsimp only
        obtain ⟨-, hoffl, hoffb, hoffmin⟩ := hscan.1 off hfs
        rw [List.length_drop] at hoffl
        rw [getD_drop] at hoffb
        have hnofb : ∀ j, start ≤ j → j < start + off →
            hay.getD j 0 ≠ nd.getD 0 0 := by
          intro j hj1 hj2
          have := hoffmin (j - start) (by omega) (by omega)
          rw [getD_drop] at this
          have hij : start + (j - start) = j := by omega
          rwa [hij] at this
        have hnomatch : ∀ j, start ≤ j → j < start + off → ¬ matchAt hay nd j :=
          fun j h1 h2 hm => hnofb j h1 h2 (matchAt_first_byte hay nd j hnd hm)
        by_cases hover : hay.length < start + off + nd.length
        · rw [if_pos hover]
          refine ⟨fun p hp => by simp at hp, fun _ j hj => ?_⟩
          by_cases hjo : j < start + off
          · exact hnomatch j hj hjo
          · exact fun hm => absurd hm.1 (by omega)
        · rw [if_neg hover]
          by_cases hver : slice hay (start + off) nd.length = nd
          · rw [if_pos hver]
            have hc : matchAt hay nd (start + off) :=
              (slice_eq_iff_matchAt hay nd (start + off) (by omega)).mp hver
            exact ⟨fun p hp => by
              obtain ⟨rfl⟩ : some (start + off) = some p := hp
              exact ⟨by omega, hc, hnomatch⟩,
              fun hcon => by simp at hcon⟩
          · rw [if_neg hver]
            have hnc : ¬ matchAt hay nd (start + off) := fun hm =>
              hver ((slice_eq_iff_matchAt hay nd (start + off) (by omega)).mpr hm)
            have hrec := ih (start + off + 1) (by omega)
            constructor
            · intro p hp
              obtain ⟨h1, h2, h3⟩ := hrec.1 p hp
              refine ⟨by omega, h2, fun j hj1 hj2 => ?_⟩
              by_cases hcase : j < start + off
              · exact hnomatch j hj1 hcase
              · by_cases hcase2 : j = start + off
                · exact hcase2 ▸ hnc
                · exact h3 j (by omega) hj2
            · intro hr j hj
              by_cases hcase : j < start + off
              · exact hnomatch j hj hcase
              · by_cases hcase2 : j = start + off
                · exact hcase2 ▸ hnc
                · exact hrec.2 hr j (by omega)
      | none =>
        dsimp only
        refine ⟨fun p hp => by simp at hp, fun _ j hj hm => ?_⟩
        have hb := matchAt_first_byte hay nd j hnd hm
        have hjn : j < hay.length := by have := hm.1; omega
        have := hscan.2 hfs (j - start) (by omega)
          (by rw [List.length_drop]; omega)
        rw [getD_drop] at this
        have hij : start + (j - start) = j := by omega
        rw [hij] at this
        exact this hb
    · rw [if_neg hsm]
      exact FirstMatchFrom.none_of_high hay nd start (by omega)

theorem firstByte_to_firstMatch (hay nd : List ℕ) (h1 : nd.length = 1)
    (lo : ℕ) (r : Option ℕ) (h : FirstByteFrom hay (nd.getD 0 0) lo r) :
    FirstMatchFrom hay nd lo r := by
  have hiff : ∀ j, matchAt hay nd j ↔ (j < hay.length ∧ hay.getD j 0 = nd.getD 0 0) := by
    intro j
    unfold matchAt
    rw [h1]
    constructor
    · rintro ⟨hb, hj⟩
      exact ⟨by omega, by simpa using hj 0 (by omega)⟩
    · rintro ⟨hb, hj⟩
      refine ⟨by omega, fun k hk => ?_⟩
      obtain rfl : k = 0 := by omega
      simpa using hj
  constructor
  · intro p hp
    obtain ⟨g1, g2, g3, g4⟩ := h.1 p hp
    exact ⟨g1, (hiff p).mpr ⟨g2, g3⟩, fun j hj1 hj2 hm =>
      g4 j hj1 hj2 ((hiff j).mp hm).2⟩
  · intro hr j hj hm
    obtain ⟨hb1, hb2⟩ := (hiff j).mp hm
    exact h.2 hr j hj hb1 hb2

theorem simd_search_eq_naive :
    ∀ hay nd, simd_search hay nd = naive_search hay nd := by
  apply eq_naive_of_FirstMatchFrom
  · intro hay nd h
    unfold simd_search
    rw [if_pos h]
  · intro hay nd h1 h2
    have hnd : nd ≠ [] := fun hh => h1 (by simp [hh])
    unfold simd_search
    rw [if_neg (by omega)]
    split
    · rename_i hone
      exact firstByte_to_firstMatch hay nd hone 0 _
        (simdScanFirstByte_spec SIMD_SIZE_BOOSTED
          (by norm_num [SIMD_SIZE_BOOSTED, SIMD_LANES, SIMD_BOOST])
          hay (nd.getD 0 0) (hay.length + 1) 0 (by omega))
    · exact simdSearchLoop_spec SIMD_SIZE_BOOSTED
        (by norm_num [SIMD_SIZE_BOOSTED, SIMD_LANES, SIMD_BOOST]) hay nd hnd
        (hay.length + 1) 0 (by omega)

/-! ### x86_64 SSE2 search (`src/search/simdx86_64.rs`) -/

/-- The needle loaded into a 128-bit register, zero-padded to 16 bytes. -/
def needleBuf (nd : List ℕ) : List ℕ := nd ++ List.replicate (16 - nd.length) 0

/-- `(mask & match_mask) == match_mask`: the low `m` bits of the 16-lane
byte-equality bitmask at window `i` are all set. -/
def maskLow (hay ndbuf : List ℕ) (i m : ℕ) : Bool :=
  decide (∀ j < m, hay.getD (i + j) 0 = ndbuf.getD j 0)

/-- Tail loop of `simd_search_x86_64`: byte-by-byte `starts_with` scan. -/
def simdX86Tail (hay nd : List ℕ) : ℕ → ℕ → Option ℕ
  | 0, _ => none
  | fuel + 1, i =>
    if i + nd.length ≤ hay.length then
      if nd.isPrefixOf (hay.drop i) then some i
      else simdX86Tail hay nd fuel (i + 1)
    else none

/-- Main 16-byte-register loop of `simd_search_x86_64`, sliding one byte at
a time and falling through to the tail loop. -/
def simdX86Main (hay nd ndbuf : List ℕ) : ℕ → ℕ → Option ℕ
  | 0, _ => none
  | fuel + 1, i =>
    if i + 16 ≤ hay.length then
      if maskLow hay ndbuf i nd.length then some i
      else simdX86Main hay nd ndbuf fuel (i + 1)
    else simdX86Tail hay nd (fuel + 1) i

/-- `src/search/simdx86_64.rs simd_search_x86_64`: needles longer than 16
bytes fall back to the portable `simd_search`. -/
def simd_search_x86_64 (hay nd : List ℕ) : Option ℕ :=
  if nd.length = 0 ∨ hay.length < nd.length then none
  else if 16 < nd.length then simd_search hay nd
  else simdX86Main hay nd (needleBuf nd) (hay.length + 1) 0

theorem isPrefixOf_iff_take :
    ∀ (nd l : List ℕ), nd.isPrefixOf l = true ↔ l.take nd.length = nd := by
  intro nd
  induction nd with
  | nil => intro l; simp [List.isPrefixOf]
  | cons a nd ih =>
    intro l
    cases l with
    | nil => simp [List.isPrefixOf]
    | cons b l =>
      simp only [List.isPrefixOf, Bool.and_eq_true, beq_iff_eq, ih l,
        List.length_cons, List.take_succ_cons, List.cons.injEq]
      constructor
      · rintro ⟨h1, h2⟩; exact ⟨h1.symm, h2⟩
      · rintro ⟨h1, h2⟩; exact ⟨h1.symm, h2⟩

theorem maskLow_iff (hay nd : List ℕ) (i : ℕ) (hin : i + 16 ≤ hay.length)
    (hm16 : nd.length ≤ 16) :
    maskLow hay (needleBuf nd) i nd.length = true ↔ matchAt hay nd i := by
  unfold maskLow matchAt
  rw [decide_eq_true_iff]
  constructor
  · intro h
    refine ⟨by omega, fun j hj => ?_⟩
    rw [h j hj, needleBuf, List.getD_append _ _ _ _ hj]
  · rintro ⟨-, hj⟩
    intro j hjm
    rw [hj j hjm, needleBuf, List.getD_append _ _ _ _ hjm]

theorem simdX86Tail_spec (hay nd : List ℕ) (hnd : nd ≠ []) :
    ∀ (fuel i : ℕ), hay.length + 1 ≤ fuel + i →
      FirstMatchFrom hay nd i (simdX86Tail hay nd fuel i) := by
  have hm1 : 1 ≤ nd.length := by
    cases nd with
    | nil => exact absurd rfl hnd
    | cons a l => simp
  intro fuel
  induction fuel with
  | zero =>
    intro i hi
    exact FirstMatchFrom.none_of_high hay nd i (by omega)
  | succ fuel ih =>
    intro i hi
    rw [simdX86Tail]
    by_cases hin : i + nd.length ≤ hay.length
    · rw [if_pos hin]
      by_cases hpre : nd.isPrefixOf (hay.drop i) = true
      · rw [if_pos hpre]
        rw [isPrefixOf_iff_take] at hpre
        have hm : matchAt hay nd i :=
          (slice_eq_iff_matchAt hay nd i (by omega)).mp hpre
        exact ⟨fun p hp => by
          obtain ⟨rfl⟩ : some i = some p := hp
          exact ⟨le_refl i, hm, fun j hj1 hj2 => by omega⟩,
          fun hcon => by simp at hcon⟩
      · rw [if_neg hpre]
        have hnm : ¬ matchAt hay nd i := fun hm =>
          hpre ((isPrefixOf_iff_take nd (hay.drop i)).mpr
            ((slice_eq_iff_matchAt hay nd i (by omega)).mpr hm))
        exact FirstMatchFrom.cons hay nd i _ hnm (ih (i + 1) (by omega))
    · rw [if_neg hin]
      exact FirstMatchFrom.none_of_high hay nd i (by omega)

theorem simdX86Main_spec (hay nd : List ℕ) (hnd : nd ≠ [])
    (hm16 : nd.length ≤ 16) :
    ∀ (fuel i : ℕ), hay.length + 1 ≤ fuel + i →
      FirstMatchFrom hay nd i (simdX86Main hay nd (needleBuf nd) fuel i) := by
  have hm1 : 1 ≤ nd.length := by
    cases nd with
    | nil => exact absurd rfl hnd
    | cons a l => simp
  intro fuel
  induction fuel with
  | zero =>
    intro i hi
    exact FirstMatchFrom.none_of_high hay nd i (by omega)
  | succ fuel ih =>
    intro i hi
    rw [simdX86Main]
    by_cases hin : i + 16 ≤ hay.length
    · rw [if_pos hin]
      by_cases hmask : maskLow hay (needleBuf nd) i nd.length = true
      · rw [if_pos hmask]
        have hm := (maskLow_iff hay nd i hin hm16).mp hmask
        exact ⟨fun p hp => by
          obtain ⟨rfl⟩ : some i = some p := hp
          exact ⟨le_refl i, hm, fun j hj1 hj2 => by omega⟩,
          fun hcon => by simp at hcon⟩
      · rw [if_neg hmask]
        have hnm : ¬ matchAt hay nd i := fun hm =>
          hmask ((maskLow_iff hay nd i hin hm16).mpr hm)
        exact FirstMatchFrom.cons hay nd i _ hnm (ih (i + 1) (by omega))
    · rw [if_neg hin]
      exact simdX86Tail_spec hay nd hnd (fuel + 1) i hi

theorem simd_search_x86_64_eq_naive :
    ∀ hay nd, simd_search_x86_64 hay nd = naive_search hay nd := by
  apply eq_naive_of_FirstMatchFrom
  · intro hay nd h
    unfold simd_search_x86_64
    rw [if_pos h]
  · intro hay nd h1 h2
    have hnd : nd ≠ [] := fun hh => h1 (by simp [hh])
    unfold simd_search_x86_64
    rw [if_neg (by omega)]
    by_cases h16 : 16 < nd.length
    · rw [if_pos h16]
      have := naive_FirstMatchFrom hay nd hnd
      rwa [← simd_search_eq_naive hay nd] at this
    · rw [if_neg h16]
      exact simdX86Main_spec hay nd hnd (by omega) (hay.length + 1) 0 (by omega)

/-! ### Boyer-Moore-Horspool (`src/search/bmh.rs`) -/

/-- Partial build of the bad-character table after processing needle
positions `0..t`. -/
def bmhShiftAux (nd : List ℕ) (t : ℕ) : ℕ → ℕ :=
  (List.range t).foldl
    (fun f i => Function.update f (nd.getD i 0) (nd.length - 1 - i))
    (fun _ => nd.length)

/-- The bad-character shift table of `bmh_search`:
`shift = [m; 256]; for i in 0..m-1 { shift[needle[i]] = m-1-i }`,
modelled as a function from byte values. -/
def bmhShift (nd : List ℕ) : ℕ → ℕ := bmhShiftAux nd (nd.length - 1)

/-- The inner right-to-left comparison loop of `bmh_search`
(`j` from `m-1` down to `0`; `cnt` is the number of comparisons left). -/
def bmhCheck (hay nd : List ℕ) (i : ℕ) : ℕ → Bool
  | 0 => true
  | j + 1 => (hay.getD (i + j) 0 == nd.getD j 0) && bmhCheck hay nd i j

/-- Outer loop of `bmh_search`: on mismatch advance by the shift of the
window's last byte. -/
def bmhLoop (hay nd : List ℕ) (shift : ℕ → ℕ) : ℕ → ℕ → Option ℕ
  | 0, _ => none
  | fuel + 1, i =>
    if i + nd.length ≤ hay.length then
      if bmhCheck hay nd i nd.length then some i
      else bmhLoop hay nd shift fuel (i + shift (hay.getD (i + nd.length - 1) 0))
    else none

/-- `src/search/bmh.rs bmh_search`. -/
def bmh_search (hay nd : List ℕ) : Option ℕ :=
  if nd.length = 0 ∨ hay.length < nd.length then none
  else bmhLoop hay nd (bmhShift nd) (hay.length + 1) 0

theorem bmhShiftAux_spec (nd : List ℕ) :
    ∀ t,
      (∀ b, bmhShiftAux nd t b = nd.length ∨
        ∃ i < t, nd.getD i 0 = b ∧ bmhShiftAux nd t b = nd.length - 1 - i) ∧
      (∀ i < t, bmhShiftAux nd t (nd.getD i 0) ≤ nd.length - 1 - i) := by
  intro t
  induction t with
  | zero =>
    refine ⟨fun b => Or.inl rfl, fun i hi => by omega⟩
  | succ t ih =>
    have hstep : bmhShiftAux nd (t + 1) =
        Function.update (bmhShiftAux nd t) (nd.getD t 0) (nd.length - 1 - t) := by
      unfold bmhShiftAux
      rw [List.range_succ, List.foldl_append, List.foldl_cons, List.foldl_nil]
    constructor
    · intro b
      rw [hstep]
      by_cases hb : nd.getD t 0 = b
      · subst hb
        exact Or.inr ⟨t, by omega, rfl, by rw [Function.update_same]⟩
      · rw [Function.update_noteq (fun h => hb h.symm)]
        rcases (ih.1 b) with h | ⟨i, hi, hib, hval⟩
        · exact Or.inl h
        · exact Or.inr ⟨i, by omega, hib, hval⟩
    · intro i hi
      rw [hstep]
      by_cases hit : i = t
      · subst hit
        rw [Function.update_same]
      · by_cases hb : nd.getD i 0 = nd.getD t 0
        · rw [hb, Function.update_same]
          omega
        · rw [Function.update_noteq hb]
          exact ih.2 i (by omega)

theorem bmhShift_pos (nd : List ℕ) (hnd : nd ≠ []) (b : ℕ) :
    1 ≤ bmhShift nd b := by
  have hm1 : 1 ≤ nd.length := by
    cases nd with
    | nil => exact absurd rfl hnd
    | cons a l => simp
  rcases (bmhShiftAux_spec nd (nd.length - 1)).1 b with h | ⟨i, hi, -, hval⟩
  · unfold bmhShift; omega
  · unfold bmhShift; omega

theorem bmhShift_last_occurrence (nd : List ℕ) (i : ℕ) (hi : i < nd.length - 1) :
    bmhShift nd (nd.getD i 0) ≤ nd.length - 1 - i :=
  (bmhShiftAux_spec nd (nd.length - 1)).2 i hi

theorem bmhCheck_iff (hay nd : List ℕ) (i : ℕ) :
    ∀ cnt, bmhCheck hay nd i cnt = true ↔
      ∀ j < cnt, hay.getD (i + j) 0 = nd.getD j 0 := by
  intro cnt
  induction cnt with
  | zero => simp [bmhCheck]
  | succ cnt ih =>
    rw [bmhCheck, Bool.and_eq_true, beq_iff_eq, ih]
    constructor
    · rintro ⟨h1, h2⟩ j hj
      by_cases hjc : j < cnt
      · exact h2 j hjc
      · obtain rfl : j = cnt := by omega
        exact h1
    · intro h
      exact ⟨h cnt (by omega), fun j hj => h j (by omega)⟩

theorem bmhCheck_iff_matchAt (hay nd : List ℕ) (i : ℕ)
    (hin : i + nd.length ≤ hay.length) :
    bmhCheck hay nd i nd.length = true ↔ matchAt hay nd i := by
  rw [bmhCheck_iff]
  unfold matchAt
  constructor
  · intro h; exact ⟨hin, h⟩
  · rintro ⟨-, h⟩; exact h

theorem bmh_skip (hay nd : List ℕ) (hnd : nd ≠ []) (i : ℕ)
    (hin : i + nd.length ≤ hay.length) :
    ∀ k, 1 ≤ k → k < bmhShift nd (hay.getD (i + nd.length - 1) 0) →
      ¬ matchAt hay nd (i + k) := by
  have hm1 : 1 ≤ nd.length := by
    cases nd with
    | nil => exact absurd rfl hnd
    | cons a l => simp
  intro k hk1 hk2 hm
  have hsle : bmhShift nd (hay.getD (i + nd.length - 1) 0) ≤ nd.length := by
    rcases (bmhShiftAux_spec nd (nd.length - 1)).1
        (hay.getD (i + nd.length - 1) 0) with h | ⟨j, hj, -, hval⟩
    · unfold bmhShift; omega
    · unfold bmhShift; omega
  have hkm : k ≤ nd.length - 1 := by omega
  have helt := hm.2 (nd.length - 1 - k) (by omega)
  have harith : i + k + (nd.length - 1 - k) = i + nd.length - 1 := by omega
  rw [harith] at helt
  have := bmhShift_last_occurrence nd (nd.length - 1 - k) (by omega)
  rw [← helt] at this
  omega

theorem bmhLoop_spec (hay nd : List ℕ) (hnd : nd ≠ []) :
    ∀ (fuel i : ℕ), hay.length + 1 ≤ fuel + i →
      FirstMatchFrom hay nd i (bmhLoop hay nd (bmhShift nd) fuel i) := by
  have hm1 : 1 ≤ nd.length := by
    cases nd with
    | nil => exact absurd rfl hnd
    | cons a l => simp
  intro fuel
  induction fuel with
  | zero =>
    intro i hi
    exact FirstMatchFrom.none_of_high hay nd i (by omega)
  | succ fuel ih =>
    intro i hi
    rw [bmhLoop]
    by_cases hin : i + nd.length ≤ hay.length
    · rw [if_pos hin]
      by_cases hchk : bmhCheck hay nd i nd.length = true
      · rw [if_pos hchk]
        have hm := (bmhCheck_iff_matchAt hay nd i hin).mp hchk
        exact ⟨fun p hp => by
          obtain ⟨rfl⟩ : some i = some p := hp
          exact ⟨le_refl i, hm, fun j hj1 hj2 => by omega⟩,
          fun hcon => by simp at hcon⟩
      · rw [if_neg hchk]
        have hnm : ¬ matchAt hay nd i := fun hm =>
          hchk ((bmhCheck_iff_matchAt hay nd i hin).mpr hm)
        have hs1 := bmhShift_pos nd hnd (hay.getD (i + nd.length - 1) 0)
        have hskip := bmh_skip hay nd hnd i hin
        have hrec := ih (i + bmhShift nd (hay.getD (i + nd.length - 1) 0))
          (by omega)
        have hgap : ∀ j, i ≤ j →
            j < i + bmhShift nd (hay.getD (i + nd.length - 1) 0) →
            ¬ matchAt hay nd j := by
          intro j hj1 hj2
          by_cases hji : j = i
          · exact hji ▸ hnm
          · have := hskip (j - i) (by omega) (by omega)
            have harith : i + (j - i) = j := by omega
            rwa [harith] at this
        constructor
        · intro p hp
          obtain ⟨h1, h2, h3⟩ := hrec.1 p hp
          refine ⟨by omega, h2, fun j hj1 hj2 => ?_⟩
          by_cases hcase : j < i + bmhShift nd (hay.getD (i + nd.length - 1) 0)
          · exact hgap j hj1 hcase
          · exact h3 j (by omega) hj2
        · intro hr j hj
          by_cases hcase : j < i + bmhShift nd (hay.getD (i + nd.length - 1) 0)
          · exact hgap j hj hcase
          · exact hrec.2 hr j (by omega)
    · rw [if_neg hin]
      exact FirstMatchFrom.none_of_high hay nd i (by omega)

theorem bmh_search_eq_naive :
    ∀ hay nd, bmh_search hay nd = naive_search hay nd := by
  apply eq_naive_of_FirstMatchFrom
  · intro hay nd h
    unfold bmh_search
    rw [if_pos h]
  · intro hay nd h1 h2
    have hnd : nd ≠ [] := fun hh => h1 (by simp [hh])
    unfold bmh_search
    rw [if_neg (by omega)]
    exact bmhLoop_spec hay nd hnd (hay.length + 1) 0 (by omega)

/-! ### Knuth-Morris-Pratt (`src/search/kmp.rs`)

Border theory: `b` is a border length of `p` when the first `b` bytes of
`p` equal its last `b` bytes and `b < p.length`. The KMP failure table
stores the longest border of each needle front. -/

/-- `b` is the length of a proper border of `p` (prefix = suffix),
stated elementwise. -/
def IsBorderLen (p : List ℕ) (b : ℕ) : Prop :=
  b < p.length ∧ ∀ j < b, p.getD j 0 = p.getD (p.length - b + j) 0

/-- Greatest `b ≤ n` whose border condition holds for `p` (`0` otherwise). -/
def maxBorderAux (p : List ℕ) : ℕ → ℕ
  | 0 => 0
  | b + 1 =>
    if ∀ j < b + 1, p.getD j 0 = p.getD (p.length - (b + 1) + j) 0 then b + 1
    else maxBorderAux p b

/-- The longest border length of `p` (`0` when `p` is empty or trivial). -/
def maxBorder (p : List ℕ) : ℕ := maxBorderAux p (p.length - 1)

theorem maxBorderAux_le (p : List ℕ) : ∀ n, maxBorderAux p n ≤ n := by
  intro n
  induction n with
  | zero => exact le_refl 0
  | succ n ih =>
    rw [maxBorderAux]
    split
    · exact le_refl _
    · omega

theorem maxBorderAux_spec (p : List ℕ) :
    ∀ n, ∀ j < maxBorderAux p n,
      p.getD j 0 = p.getD (p.length - maxBorderAux p n + j) 0 := by
  intro n
  induction n with
  | zero => intro j hj; simp [maxBorderAux] at hj
  | succ n ih =>
    rw [maxBorderAux]
    split
    · rename_i h
      exact h
    · exact ih

theorem le_maxBorderAux (p : List ℕ) (b : ℕ)
    (hb : ∀ j < b, p.getD j 0 = p.getD (p.length - b + j) 0) :
    ∀ n, b ≤ n → b ≤ maxBorderAux p n := by
  intro n
  induction n with
  | zero => intro h; omega
  | succ n ih =>
    intro hbn
    rw [maxBorderAux]
    split
    · exact hbn
    · rename_i h
      have hne : b ≠ n + 1 := fun he => h (he ▸ hb)
      exact ih (by omega)

theorem getD_take (p : List ℕ) (B j : ℕ) (hj : j < B) :
    (p.take B).getD j 0 = p.getD j 0 := by
  by_cases h : j < p.length
  · rw [List.getD_eq_getElem _ _ (by simp; omega), List.getD_eq_getElem _ _ h]
    simp
  · rw [List.getD_eq_default _ _ (by simp; omega),
      List.getD_eq_default _ _ (by omega)]

theorem maxBorder_le (p : List ℕ) : maxBorder p ≤ p.length - 1 :=
  maxBorderAux_le p (p.length - 1)

theorem maxBorder_isBorder (p : List ℕ) (hp : p ≠ []) :
    IsBorderLen p (maxBorder p) := by
  have hL : 1 ≤ p.length := by
    cases p with
    | nil => exact absurd rfl hp
    | cons a l => simp
  exact ⟨by have := maxBorder_le p; omega, maxBorderAux_spec p (p.length - 1)⟩

theorem le_maxBorder (p : List ℕ) (b : ℕ) (hb : IsBorderLen p b) :
    b ≤ maxBorder p :=
  le_maxBorderAux p b hb.2 (p.length - 1) (by have := hb.1; omega)

theorem border_of_border_lt (p : List ℕ) (b B : ℕ) (hB : IsBorderLen p B)
    (hb : IsBorderLen p b) (hlt : b < B) : IsBorderLen (p.take B) b := by
  have hBL := hB.1
  refine ⟨by simp [List.length_take]; omega, fun j hj => ?_⟩
  rw [List.length_take]
  rw [getD_take p B j (by omega), getD_take p B _ (by omega)]
  have e1 : min B p.length - b + j = B - b + j := by omega
  rw [e1]
  have h1 := hb.2 j (by omega)
  have h2 := hB.2 (B - b + j) (by omega)
  have e2 : p.length - B + (B - b + j) = p.length - b + j := by omega
  rw [e2] at h2
  rw [h1, ← h2]

theorem border_trans (p : List ℕ) (B b : ℕ) (hB : IsBorderLen p B)
    (hb : IsBorderLen (p.take B) b) : IsBorderLen p b := by
  have hBL := hB.1
  have hbB : b < B := by
    have := hb.1
    simp [List.length_take] at this
    omega
  refine ⟨by omega, fun j hj => ?_⟩
  have h1 := hb.2 j hj
  rw [List.length_take] at h1
  have e1 : min B p.length - b + j = B - b + j := by omega
  rw [e1, getD_take p B j (by omega), getD_take p B _ (by omega)] at h1
  have h2 := hB.2 (B - b + j) (by omega)
  have e2 : p.length - B + (B - b + j) = p.length - b + j := by omega
  rw [e2] at h2
  rw [h1, h2]

theorem border_cat_iff (p : List ℕ) (c b : ℕ) (hb1 : 1 ≤ b)
    (hb2 : b ≤ p.length) :
    IsBorderLen (p ++ [c]) b ↔
      ((∀ j < b - 1, p.getD j 0 = p.getD (p.length - (b - 1) + j) 0) ∧
        p.getD (b - 1) 0 = c) := by
  have hL : 1 ≤ p.length := by omega
  have hlen : (p ++ [c]).length = p.length + 1 := by simp
  have hqL : ∀ j, j < p.length → (p ++ [c]).getD j 0 = p.getD j 0 :=
    fun j hj => List.getD_append _ _ _ _ hj
  have hqlast : (p ++ [c]).getD p.length 0 = c := by
    rw [List.getD_append_right _ _ _ _ (le_refl _)]
    simp
  constructor
  · rintro ⟨-, h⟩
    rw [hlen] at h
    constructor
    · intro j hj
      have := h j (by omega)
      rw [hqL j (by omega)] at this
      have e1 : p.length + 1 - b + j < p.length := by omega
      rw [hqL _ e1] at this
      have e2 : p.length + 1 - b + j = p.length - (b - 1) + j := by omega
      rwa [e2] at this
    · have := h (b - 1) (by omega)
      rw [hqL (b - 1) (by omega)] at this
      have e3 : p.length + 1 - b + (b - 1) = p.length := by omega
      rw [e3, hqlast] at this
      exact this
  · rintro ⟨h1, h2⟩
    refine ⟨by omega, fun j hj => ?_⟩
    rw [hlen]
    by_cases hjb : j < b - 1
    · rw [hqL j (by omega)]
      have e1 : p.length + 1 - b + j < p.length := by omega
      rw [hqL _ e1]
      have e2 : p.length + 1 - b + j = p.length - (b - 1) + j := by omega
      rw [e2]
      exact h1 j hjb
    · obtain rfl : j = b - 1 := by omega
      rw [hqL (b - 1) (by omega)]
      have e3 : p.length + 1 - b + (b - 1) = p.length := by omega
      rw [e3, hqlast]
      exact h2

theorem take_succ_getD (l : List ℕ) (i : ℕ) (hi : i < l.length) :
    l.take (i + 1) = l.take i ++ [l.getD i 0] := by
  rw [List.getD_eq_getElem _ _ hi]
  rw [List.take_succ, List.getElem?_eq_getElem hi]
  rfl

/-- The `while j > 0 && needle[i] != needle[j] { j = prefix[j-1]; }` loop of
the table construction; the fuel bounds the strictly decreasing `j`. -/
def kmpFall (nd tbl : List ℕ) (c : ℕ) : ℕ → ℕ → ℕ
  | 0, j => j
  | fuel + 1, j =>
    if 0 < j ∧ nd.getD j 0 ≠ c then kmpFall nd tbl c fuel (tbl.getD (j - 1) 0)
    else j

/-- One iteration of the table-construction `for i in 1..m` loop:
fall back, extend on equality, store `prefix[i] = j`. -/
def kmpTableStep (nd : List ℕ) (acc : List ℕ × ℕ) (i : ℕ) : List ℕ × ℕ :=
  let j := kmpFall nd acc.1 (nd.getD i 0) nd.length acc.2
  let j2 := if nd.getD i 0 = nd.getD j 0 then j + 1 else j
  (acc.1.set i j2, j2)

/-- The failure table `prefix` of `kmp_search`, built over `i = 1..m-1`
starting from `vec![0; m]` and `j = 0`. -/
def kmpTable (nd : List ℕ) : List ℕ :=
  ((List.range' 1 (nd.length - 1)).foldl (kmpTableStep nd)
    (List.replicate nd.length 0, 0)).1

/-- The scan loop of `kmp_search` over state `(i, k)`. -/
def kmpLoop (hay nd tbl : List ℕ) : ℕ → ℕ → ℕ → Option ℕ
  | 0, _, _ => none
  | fuel + 1, i, k =>
    if i < hay.length then
      if hay.getD i 0 = nd.getD k 0 then
        if k + 1 = nd.length then some (i + 1 - nd.length)
        else kmpLoop hay nd tbl fuel (i + 1) (k + 1)
      else if 0 < k then kmpLoop hay nd tbl fuel i (tbl.getD (k - 1) 0)
      else kmpLoop hay nd tbl fuel (i + 1) 0
    else none

/-- `src/search/kmp.rs kmp_search`. -/
def kmp_search (hay nd : List ℕ) : Option ℕ :=
  if nd.length = 0 ∨ hay.length < nd.length then none
  else kmpLoop hay nd (kmpTable nd) (2 * hay.length + nd.length + 1) 0 0

theorem kmpFall_spec (nd tbl : List ℕ) (c i : ℕ)
    (hi1 : 1 ≤ i) (him : i < nd.length)
    (htbl : ∀ j, 1 ≤ j → j ≤ i → tbl.getD (j - 1) 0 = maxBorder (nd.take j)) :
    ∀ fuel j, j ≤ fuel → IsBorderLen (nd.take i) j →
      (∀ b, IsBorderLen (nd.take i) b → nd.getD b 0 = c → b ≤ j) →
      (IsBorderLen (nd.take i) (kmpFall nd tbl c fuel j) ∧
       (kmpFall nd tbl c fuel j = 0 ∨ nd.getD (kmpFall nd tbl c fuel j) 0 = c) ∧
       (∀ b, IsBorderLen (nd.take i) b → nd.getD b 0 = c →
         b ≤ kmpFall nd tbl c fuel j)) := by
  have hpL : (nd.take i).length = i := by simp; omega
  intro fuel
  induction fuel with
  | zero =>
    intro j hj hbord hmax
    obtain rfl : j = 0 := by omega
    exact ⟨hbord, Or.inl rfl, hmax⟩
  | succ fuel ih =>
    intro j hj hbord hmax
    rw [kmpFall]
    by_cases hcond : 0 < j ∧ nd.getD j 0 ≠ c
    · rw [if_pos hcond]
      obtain ⟨hj0, hne⟩ := hcond
      have hjlt : j < i := by have := hbord.1; omega
      have htake : (nd.take i).take j = nd.take j := by
        rw [List.take_take]
        congr 1
        omega
      have hnext : tbl.getD (j - 1) 0 = maxBorder ((nd.take i).take j) := by
        rw [htake]
        exact htbl j hj0 (by omega)
      have hqne : (nd.take i).take j ≠ [] := by
        intro h
        have := congrArg List.length h
        rw [List.length_take, hpL] at this
        simp at this
        omega
      have hmb := maxBorder_isBorder ((nd.take i).take j) hqne
      have hmble : maxBorder ((nd.take i).take j) ≤ j - 1 := by
        have := maxBorder_le ((nd.take i).take j)
        rw [List.length_take, hpL] at this
        omega
      have hbord2 : IsBorderLen (nd.take i) (tbl.getD (j - 1) 0) := by
        rw [hnext]
        exact border_trans (nd.take i) j _ hbord hmb
      have hmax2 : ∀ b, IsBorderLen (nd.take i) b → nd.getD b 0 = c →
          b ≤ tbl.getD (j - 1) 0 := by
        intro b hb hbc
        have hble : b ≤ j := hmax b hb hbc
        have hbne : b ≠ j := by
          intro he
          rw [he] at hbc
          exact hne hbc
        rw [hnext]
        exact le_maxBorder _ b (border_of_border_lt (nd.take i) b j hbord hb
          (by omega))
      exact ih (tbl.getD (j - 1) 0) (by omega) hbord2 hmax2
    · rw [if_neg hcond]
      push_neg at hcond
      refine ⟨hbord, ?_, hmax⟩
      by_cases hj0 : j = 0
      · exact Or.inl hj0
      · exact Or.inr (hcond (by omega))

theorem getD_set_self (l : List ℕ) (i v : ℕ) (h : i < l.length) :
    (l.set i v).getD i 0 = v := by
  rw [List.getD_eq_getElem _ _ (by simpa using h)]
  simp

theorem getD_set_other (l : List ℕ) (i k v : ℕ) (h : k ≠ i) :
    (l.set i v).getD k 0 = l.getD k 0 := by
  by_cases hk : k < l.length
  · rw [List.getD_eq_getElem _ _ (by simpa using hk),
      List.getD_eq_getElem _ _ hk]
    exact List.getElem_set_ne (fun he => h he.symm) _
  · rw [List.getD_eq_default _ _ (by simpa using hk),
      List.getD_eq_default _ _ (by omega)]

theorem getD_replicate_zero (n i : ℕ) :
    (List.replicate n (0 : ℕ)).getD i 0 = 0 := by
  by_cases h : i < n
  · rw [List.getD_eq_getElem _ _ (by simpa using h)]
    simp
  · rw [List.getD_eq_default _ _ (by simpa using h)]

theorem maxBorder_short (q : List ℕ) (h : q.length ≤ 1) : maxBorder q = 0 := by
  unfold maxBorder
  have he : q.length - 1 = 0 := by omega
  rw [he]
  rfl

/-- Invariant of the table-construction fold after processing positions
`1..t`: the first `t+1` entries hold the longest borders of the needle
fronts, and the running `j` is the border of the last processed front. -/
def KmpInv (nd : List ℕ) (t : ℕ) (st : List ℕ × ℕ) : Prop :=
  st.1.length = nd.length ∧
  (∀ i, i ≤ t → st.1.getD i 0 = maxBorder (nd.take (i + 1))) ∧
  st.2 = maxBorder (nd.take (t + 1))

theorem kmpTableStep_spec (nd : List ℕ) (t : ℕ)
    (ht : t + 1 ≤ nd.length - 1) (st : List ℕ × ℕ) (hst : KmpInv nd t st) :
    KmpInv nd (t + 1) (kmpTableStep nd st (t + 1)) := by
  obtain ⟨hlen, hent, hj⟩ := hst
  have hm2 : 2 ≤ nd.length := by omega
  set i := t + 1 with hidef
  have hi1 : 1 ≤ i := by omega
  have him : i < nd.length := by omega
  have hpL : (nd.take i).length = i := by simp; omega
  have hpne : nd.take i ≠ [] := by
    intro h
    rw [← List.length_eq_zero, hpL] at h
    omega
  have htbl : ∀ j, 1 ≤ j → j ≤ i → st.1.getD (j - 1) 0 = maxBorder (nd.take j) := by
    intro j hj1 hj2
    have := hent (j - 1) (by omega)
    have he : j - 1 + 1 = j := by omega
    rwa [he] at this
  -- the take-i front viewed as the previous front
  have hstart : IsBorderLen (nd.take i) st.2 := by
    rw [hj]
    exact maxBorder_isBorder (nd.take i) hpne
  have hstartmax : ∀ b, IsBorderLen (nd.take i) b →
      nd.getD b 0 = nd.getD i 0 → b ≤ st.2 := by
    intro b hb _
    rw [hj]
    exact le_maxBorder (nd.take i) b hb
  have hfuel : st.2 ≤ nd.length := by
    rw [hj]
    have h1 := maxBorder_le (nd.take i)
    omega
  obtain ⟨hrb, hrc, hrmax⟩ := kmpFall_spec nd st.1 (nd.getD i 0) i hi1 him htbl
    nd.length st.2 hfuel hstart hstartmax
  set r := kmpFall nd st.1 (nd.getD i 0) nd.length st.2 with hrdef
  -- characterize the new border value j2
  have hkey : maxBorder (nd.take (i + 1)) =
      (if nd.getD i 0 = nd.getD r 0 then r + 1 else r) := by
    have hcat : nd.take (i + 1) = nd.take i ++ [nd.getD i 0] :=
      take_succ_getD nd i him
    have hrlt : r < i := by
      have := hrb.1
      omega
    split
    · rename_i heq
      -- extend the border r by the matching byte
      apply le_antisymm
      · -- any border of the longer front is ≤ r+1
        have hmbb := maxBorder_isBorder (nd.take (i + 1))
          (by
            intro h
            rw [← List.length_eq_zero, List.length_take] at h
            omega)
        set B := maxBorder (nd.take (i + 1)) with hBdef
        rcases Nat.eq_zero_or_pos B with hB0 | hBpos
        · omega
        · have hBlen : B < (nd.take (i + 1)).length := hmbb.1
          have hBlen2 : (nd.take (i + 1)).length = i + 1 := by simp; omega
          have := (border_cat_iff (nd.take i) (nd.getD i 0) B (by omega)
            (by omega)).mp (by rwa [← hcat])
          obtain ⟨hb1, hb2⟩ := this
          have hbord : IsBorderLen (nd.take i) (B - 1) := ⟨by omega, hb1⟩
          have : B - 1 ≤ r := by
            apply hrmax (B - 1) hbord
            have he : (nd.take i).getD (B - 1) 0 = nd.getD (B - 1) 0 :=
              getD_take nd i (B - 1) (by omega)
            rw [← he]
            exact hb2
          omega
      · -- r+1 is a border of the longer front
        apply le_maxBorder
        rw [hcat]
        rw [border_cat_iff (nd.take i) (nd.getD i 0) (r + 1) (by omega) (by omega)]
        constructor
        · simp only [Nat.add_sub_cancel]
          exact hrb.2
        · have he : (nd.take i).getD r 0 = nd.getD r 0 :=
            getD_take nd i r hrlt
          simp only [Nat.add_sub_cancel]
          rw [he, heq]
    · rename_i hne
      -- mismatch: the fall result must be 0 and no nonzero border extends
      have hr0 : r = 0 := by
        rcases hrc with h | h
        · exact h
        · exact absurd h.symm hne
      rw [hr0]
      by_contra hpos
      have hBpos : 0 < maxBorder (nd.take (i + 1)) := by omega
      have hmbb := maxBorder_isBorder (nd.take (i + 1))
        (by
          intro h
          rw [← List.length_eq_zero, List.length_take] at h
          omega)
      set B := maxBorder (nd.take (i + 1)) with hBdef
      have hBlen : B < (nd.take (i + 1)).length := hmbb.1
      have hBlen2 : (nd.take (i + 1)).length = i + 1 := by simp; omega
      have := (border_cat_iff (nd.take i) (nd.getD i 0) B (by omega)
        (by omega)).mp (by rwa [← hcat])
      obtain ⟨hb1, hb2⟩ := this
      have hbord : IsBorderLen (nd.take i) (B - 1) := ⟨by omega, hb1⟩
      have hble : B - 1 ≤ r := by
        apply hrmax (B - 1) hbord
        have he : (nd.take i).getD (B - 1) 0 = nd.getD (B - 1) 0 :=
          getD_take nd i (B - 1) (by omega)
        rw [← he]
        exact hb2
      have hB1 : B = 1 := by omega
      -- then nd[0] = nd[i], contradicting the mismatch at r = 0
      have := hb2
      rw [hB1] at this
      simp only [Nat.sub_self] at this
      have he : (nd.take i).getD 0 0 = nd.getD 0 0 :=
        getD_take nd i 0 (by omega)
      rw [he] at this
      rw [hr0] at hne
      exact hne this.symm
  refine ⟨by simp [kmpTableStep, hlen], ?_, ?_⟩
  · intro i2 hi2
    unfold kmpTableStep
    dsimp only
    by_cases hcase : i2 = i
    · subst hcase
      rw [getD_set_self _ _ _ (by omega), ← hrdef, ← hkey]
    · rw [getD_set_other _ _ _ _ hcase]
      exact hent i2 (by omega)
  · unfold kmpTableStep
    dsimp only
    rw [← hrdef, ← hkey]

theorem kmpFold_inv (nd : List ℕ) :
    ∀ t, t ≤ nd.length - 1 →
      KmpInv nd t ((List.range' 1 t).foldl (kmpTableStep nd)
        (List.replicate nd.length 0, 0)) := by
  intro t
  induction t with
  | zero =>
    intro _
    rw [show List.range' 1 0 = ([] : List ℕ) from rfl, List.foldl_nil]
    refine ⟨by simp, ?_, ?_⟩
    · intro i hi
      obtain rfl : i = 0 := by omega
      rw [getD_replicate_zero]
      exact (maxBorder_short (nd.take (0 + 1))
        (by rw [List.length_take]; omega)).symm
    · exact (maxBorder_short (nd.take (0 + 1))
        (by rw [List.length_take]; omega)).symm
  | succ t ih =>
    intro ht
    rw [List.range'_1_concat, List.foldl_append, List.foldl_cons, List.foldl_nil]
    have hstep := kmpTableStep_spec nd t (by omega) _ (ih (by omega))
    have he : 1 + t = t + 1 := by omega
    rwa [he]

theorem kmpTable_spec (nd : List ℕ) (_hnd : nd ≠ []) :
    ∀ j, 1 ≤ j → j ≤ nd.length - 1 →
      (kmpTable nd).getD (j - 1) 0 = maxBorder (nd.take j) := by
  intro j h1 h2
  have hthis := (kmpFold_inv nd (nd.length - 1) (le_refl _)).2.1 (j - 1) (by omega)
  have e : j - 1 + 1 = j := by omega
  rw [e] at hthis
  unfold kmpTable
  exact hthis

theorem kmpLoop_spec (hay nd tbl : List ℕ) (hnd : nd ≠ [])
    (hmn : nd.length ≤ hay.length)
    (htbl : ∀ j, 1 ≤ j → j ≤ nd.length - 1 →
      tbl.getD (j - 1) 0 = maxBorder (nd.take j)) :
    ∀ fuel i k, 2 * (hay.length - i) + k + 1 ≤ fuel →
      k < nd.length → k ≤ i → i ≤ hay.length →
      (∀ j < k, hay.getD (i - k + j) 0 = nd.getD j 0) →
      (∀ s, s < i - k → ¬ matchAt hay nd s) →
      FirstMatchFrom hay nd 0 (kmpLoop hay nd tbl fuel i k) := by
  have hm1 : 1 ≤ nd.length := by
    cases nd with
    | nil => exact absurd rfl hnd
    | cons a l => simp
  intro fuel
  induction fuel with
  | zero =>
    intro i k hf
    omega
  | succ fuel ih =>
    intro i k hf hkm hki hin hpart hmin
    rw [kmpLoop]
    by_cases hilt : i < hay.length
    · rw [if_pos hilt]
      by_cases hbyte : hay.getD i 0 = nd.getD k 0
      · rw [if_pos hbyte]
        by_cases hkend : k + 1 = nd.length
        · rw [if_pos hkend]
          have hpos : i + 1 - nd.length = i - k := by omega
          have hmatch : matchAt hay nd (i - k) := by
            refine ⟨by omega, fun j hj => ?_⟩
            by_cases hjk : j < k
            · exact hpart j hjk
            · have hjk2 : j = k := by omega
              rw [hjk2]
              have e : i - k + k = i := by omega
              rw [e]
              exact hbyte
          constructor
          · intro p hp
            obtain ⟨rfl⟩ : some (i + 1 - nd.length) = some p := hp
            rw [hpos]
            exact ⟨Nat.zero_le _, hmatch, fun j _ hj => hmin j hj⟩
          · intro hcon
            simp at hcon
        · rw [if_neg hkend]
          apply ih (i + 1) (k + 1) (by omega) (by omega) (by omega) (by omega)
          · intro j hj
            have e : i + 1 - (k + 1) = i - k := by omega
            rw [e]
            by_cases hjk : j < k
            · exact hpart j hjk
            · have hjk2 : j = k := by omega
              rw [hjk2]
              have e2 : i - k + k = i := by omega
              rw [e2]
              exact hbyte
          · intro s hs
            exact hmin s (by omega)
      · rw [if_neg hbyte]
        by_cases hk0 : 0 < k
        · rw [if_pos hk0]
          have hk1 : tbl.getD (k - 1) 0 = maxBorder (nd.take k) :=
            htbl k hk0 (by omega)
          have hkL : (nd.take k).length = k := by simp; omega
          have hk2b : tbl.getD (k - 1) 0 ≤ k - 1 := by
            rw [hk1]
            have := maxBorder_le (nd.take k)
            omega
          have hkne : nd.take k ≠ [] := by
            intro h
            rw [← List.length_eq_zero, hkL] at h
            omega
          have hborder := maxBorder_isBorder (nd.take k) hkne
          have hself : ∀ j < tbl.getD (k - 1) 0,
              nd.getD j 0 = nd.getD (k - tbl.getD (k - 1) 0 + j) 0 := by
            intro j hj
            rw [hk1] at hj
            have := hborder.2 j hj
            rw [hkL] at this
            rw [getD_take nd k j (by omega),
              getD_take nd k _ (by omega)] at this
            rw [hk1]
            exact this
          apply ih i (tbl.getD (k - 1) 0) (by omega) (by omega) (by omega) hin
          · intro j hj
            have h1 := hself j hj
            have h2 := hpart (k - tbl.getD (k - 1) 0 + j) (by omega)
            have e : i - k + (k - tbl.getD (k - 1) 0 + j) =
                i - tbl.getD (k - 1) 0 + j := by omega
            rw [e] at h2
            rw [h2]
            exact h1.symm
          · intro s hs hm
            by_cases hs1 : s < i - k
            · exact hmin s hs1 hm
            · by_cases hs2 : s = i - k
              · have := hm.2 k (by omega)
                rw [hs2] at this
                have e : i - k + k = i := by omega
                rw [e] at this
                exact hbyte this
              · have hb1 : i - s < k := by omega
                have hb2 : tbl.getD (k - 1) 0 < i - s := by omega
                have hbord : IsBorderLen (nd.take k) (i - s) := by
                  refine ⟨by rw [hkL]; omega, fun j hj => ?_⟩
                  rw [hkL]
                  rw [getD_take nd k j (by omega), getD_take nd k _ (by omega)]
                  have hmj := hm.2 j (by omega)
                  have hpj := hpart (k - (i - s) + j) (by omega)
                  have e1 : i - k + (k - (i - s) + j) = s + j := by omega
                  rw [e1] at hpj
                  rw [← hmj]
                  exact hpj
                have := le_maxBorder (nd.take k) (i - s) hbord
                rw [← hk1] at this
                omega
        · rw [if_neg hk0]
          obtain rfl : k = 0 := by omega
          apply ih (i + 1) 0 (by omega) (by omega) (by omega) (by omega)
          · intro j hj
            omega
          · intro s hs hm
            by_cases hsi : s < i
            · exact hmin s (by omega) hm
            · obtain rfl : s = i := by omega
              have := hm.2 0 (by omega)
              simp only [Nat.add_zero] at this
              exact hbyte this
    · rw [if_neg hilt]
      refine ⟨fun p hp => by simp at hp, fun _ s _ hm => ?_⟩
      by_cases hs : s < i - k
      · exact hmin s hs hm
      · have := hm.1
        omega

theorem kmp_search_eq_naive :
    ∀ hay nd, kmp_search hay nd = naive_search hay nd := by
  apply eq_naive_of_FirstMatchFrom
  · intro hay nd h
    unfold kmp_search
    rw [if_pos h]
  · intro hay nd h1 h2
    have hnd : nd ≠ [] := fun hh => h1 (by simp [hh])
    unfold kmp_search
    rw [if_neg (by omega)]
    apply kmpLoop_spec hay nd (kmpTable nd) hnd h2 (kmpTable_spec nd hnd)
      (2 * hay.length + nd.length + 1) 0 0 (by omega) (by omega) (by omega)
      (by omega)
    · intro j hj
      omega
    · intro s hs
      omega

/-! ### Algorithm selector (`src/search/mod.rs`) -/

inductive Algorithm where
  | Naive
  | Bmh
  | Kmp
  | SimdX8664
  | Simd
deriving DecidableEq

/-- The per-window matcher dispatch used by both finders. -/
def searchDispatch : Algorithm → List ℕ → List ℕ → Option ℕ
  | Algorithm.Naive => naive_search
  | Algorithm.Bmh => bmh_search
  | Algorithm.Kmp => kmp_search
  | Algorithm.SimdX8664 => simd_search_x86_64
  | Algorithm.Simd => simd_search

theorem searchDispatch_eq_naive (a : Algorithm) (hay nd : List ℕ) :
    searchDispatch a hay nd = naive_search hay nd := by
  cases a with
  | Naive => rfl
  | Bmh => exact bmh_search_eq_naive hay nd
  | Kmp => exact kmp_search_eq_naive hay nd
  | SimdX8664 => exact simd_search_x86_64_eq_naive hay nd
  | Simd => exact simd_search_eq_naive hay nd

/-! ### Zero-copy finder (`src/mmap_finder.rs`) -/

inductive MmapFinderError where
  | Io
  | EmptyNeedle
deriving DecidableEq

structure MmapFinder where
  mmap : List ℕ
  needle : List ℕ
deriving DecidableEq

/-- `MmapFinder::new`: the empty-needle check precedes the file open;
opening and mapping the path is abstracted as an optional byte image
(`none` = open or map failure). -/
def MmapFinder.new (file : Option (List ℕ)) (needle : List ℕ) :
    Except MmapFinderError MmapFinder :=
  if needle = [] then Except.error MmapFinderError.EmptyNeedle
  else
    match file with
    | none => Except.error MmapFinderError.Io
    | some bytes => Except.ok ⟨bytes, needle⟩

/-- `MmapFinder::from_mmap`. -/
def MmapFinder.from_mmap (mmap needle : List ℕ) :
    Except MmapFinderError MmapFinder :=
  if needle = [] then Except.error MmapFinderError.EmptyNeedle
  else Except.ok ⟨mmap, needle⟩

structure MmapFinderIter where
  haystack : List ℕ
  needle : List ℕ
  algo : Algorithm
  pos : ℕ
deriving DecidableEq

/-- `MmapFinder::find_all`: a fresh iterator starting at position 0. -/
def MmapFinder.find_all (f : MmapFinder) (algo : Algorithm) : MmapFinderIter :=
  ⟨f.mmap, f.needle, algo, 0⟩

/-- `MmapFinder::find_first`: one dispatch over the whole region. -/
def MmapFinder.find_first (f : MmapFinder) (algo : Algorithm) : Option ℕ :=
  searchDispatch algo f.mmap f.needle

/-- `MmapFinderIter::next` (`src/mmap_finder.rs` lines 112-139), as a pure
step returning the yielded item and the successor state. -/
def MmapFinderIter.next (it : MmapFinderIter) : Option ℕ × MmapFinderIter :=
  if it.haystack.length ≤ it.pos then (none, it)
  else
    match searchDispatch it.algo (it.haystack.drop it.pos) it.needle with
    | some i => (some (it.pos + i), { it with pos := it.pos + i + 1 })
    | none => (none, it)

/-- Drive the iterator to exhaustion, collecting yielded positions
(the fuel bounds the number of steps). -/
def mmapPositionsAux : ℕ → MmapFinderIter → List ℕ
  | 0, _ => []
  | fuel + 1, it =>
    match MmapFinderIter.next it with
    | (none, _) => []
    | (some p, it2) => p :: mmapPositionsAux fuel it2

/-- The full position sequence of `find_all`. -/
def mmapPositions (f : MmapFinder) (algo : Algorithm) : List ℕ :=
  mmapPositionsAux (f.mmap.length + 1) (f.find_all algo)

theorem matchAt_drop (hay nd : List ℕ) (hnd : nd ≠ []) (pos q : ℕ) :
    matchAt (hay.drop pos) nd q ↔ matchAt hay nd (pos + q) := by
  have hm1 : 1 ≤ nd.length := by
    cases nd with
    | nil => exact absurd rfl hnd
    | cons a l => simp
  unfold matchAt
  rw [List.length_drop]
  constructor
  · rintro ⟨hb, hj⟩
    refine ⟨by omega, fun j hjm => ?_⟩
    have := hj j hjm
    rw [getD_drop] at this
    have e : pos + (q + j) = pos + q + j := by omega
    rwa [e] at this
  · rintro ⟨hb, hj⟩
    refine ⟨by omega, fun j hjm => ?_⟩
    rw [getD_drop]
    have e : pos + (q + j) = pos + q + j := by omega
    rw [e]
    exact hj j hjm

theorem MmapFinderIter.next_some (it : MmapFinderIter) (p : ℕ)
    (it2 : MmapFinderIter) (h : MmapFinderIter.next it = (some p, it2)) :
    it.pos ≤ p ∧ it2.pos = p + 1 ∧ it2.haystack = it.haystack ∧
      it2.needle = it.needle ∧ it2.algo = it.algo := by
  unfold MmapFinderIter.next at h
  split at h
  · exact absurd h (by simp)
  · cases hfs : searchDispatch it.algo (it.haystack.drop it.pos) it.needle with
    | some i =>
      rw [hfs] at h
      obtain ⟨h1, h2⟩ : some (it.pos + i) = some p ∧
          ({ it with pos := it.pos + i + 1 } : MmapFinderIter) = it2 := by
        cases h
        exact ⟨rfl, rfl⟩
      obtain rfl : it.pos + i = p := by
        cases h1
        rfl
      rw [← h2]
      exact ⟨by omega, rfl, rfl, rfl, rfl⟩
    | none =>
      rw [hfs] at h
      exact absurd h (by simp)

theorem mmapPositionsAux_mono :
    ∀ (fuel : ℕ) (it : MmapFinderIter),
      (∀ q ∈ mmapPositionsAux fuel it, it.pos ≤ q) ∧
      List.Pairwise (fun a b => a < b) (mmapPositionsAux fuel it) := by
  intro fuel
  induction fuel with
  | zero => intro it; exact ⟨by simp [mmapPositionsAux], by simp [mmapPositionsAux]⟩
  | succ fuel ih =>
    intro it
    rw [mmapPositionsAux]
    cases hnx : MmapFinderIter.next it with
    | mk r it2 =>
      cases r with
      | none => exact ⟨by simp, by simp⟩
      | some p =>
        obtain ⟨hp1, hp2, -, -, -⟩ := MmapFinderIter.next_some it p it2 hnx
        obtain ⟨ih1, ih2⟩ := ih it2
        refine ⟨?_, ?_⟩
        · intro q hq
          simp only [List.mem_cons] at hq
          rcases hq with rfl | hq
          · exact hp1
          · have := ih1 q hq
            omega
        · refine List.Pairwise.cons ?_ ih2
          intro q hq
          have := ih1 q hq
          omega

theorem mmapPositionsAux_mem (hay nd : List ℕ) (hnd : nd ≠ []) (algo : Algorithm) :
    ∀ (fuel pos : ℕ), hay.length + 1 ≤ fuel + pos →
      ∀ p, p ∈ mmapPositionsAux fuel ⟨hay, nd, algo, pos⟩ ↔
        (pos ≤ p ∧ matchAt hay nd p) := by
  have hm1 : 1 ≤ nd.length := by
    cases nd with
    | nil => exact absurd rfl hnd
    | cons a l => simp
  intro fuel
  induction fuel with
  | zero =>
    intro pos hf p
    simp only [mmapPositionsAux, List.not_mem_nil, false_iff]
    rintro ⟨h1, h2⟩
    have := h2.1
    omega
  | succ fuel ih =>
    intro pos hf p
    rw [mmapPositionsAux]
    unfold MmapFinderIter.next
    dsimp only
    by_cases hpos : hay.length ≤ pos
    · rw [if_pos hpos]
      simp only [List.not_mem_nil, false_iff]
      rintro ⟨h1, h2⟩
      have := h2.1
      omega
    · rw [if_neg hpos]
      rw [searchDispatch_eq_naive]
      cases hnv : naive_search (hay.drop pos) nd with
      | none =>
        simp only [List.not_mem_nil, false_iff]
        rintro ⟨h1, h2⟩
        rcases (naive_search_eq_none _ _).mp hnv with h | h
        · exact hnd h
        · refine h (p - pos) ((matchAt_drop hay nd hnd pos (p - pos)).mpr ?_)
          have e : pos + (p - pos) = p := by omega
          rw [e]
          exact h2
      | some i =>
        obtain ⟨-, hmi, hmini⟩ := (naive_search_eq_some _ _ _).mp hnv
        have hmatch : matchAt hay nd (pos + i) :=
          (matchAt_drop hay nd hnd pos i).mp hmi
        have hrec := ih (pos + i + 1) (by omega) p
        rw [List.mem_cons, hrec]
        constructor
        · rintro (rfl | ⟨h1, h2⟩)
          · exact ⟨by omega, hmatch⟩
          · exact ⟨by omega, h2⟩
        · rintro ⟨h1, h2⟩
          by_cases hcmp : p < pos + i
          · exfalso
            have hd : matchAt (hay.drop pos) nd (p - pos) := by
              refine (matchAt_drop hay nd hnd pos (p - pos)).mpr ?_
              have e : pos + (p - pos) = p := by omega
              rw [e]
              exact h2
            exact hmini (p - pos) (by omega) hd
          · by_cases heq : p = pos + i
            · exact Or.inl heq
            · exact Or.inr ⟨by omega, h2⟩

theorem mmapPositions_mem (f : MmapFinder) (algo : Algorithm)
    (hnd : f.needle ≠ []) (p : ℕ) :
    p ∈ mmapPositions f algo ↔ matchAt f.mmap f.needle p := by
  unfold mmapPositions MmapFinder.find_all
  rw [mmapPositionsAux_mem f.mmap f.needle hnd algo (f.mmap.length + 1) 0
    (by omega) p]
  simp

theorem mmap_next_short (it : MmapFinderIter)
    (h : it.haystack.length < it.pos + it.needle.length) :
    (MmapFinderIter.next it).1 = none := by
  unfold MmapFinderIter.next
  by_cases hpos : it.haystack.length ≤ it.pos
  · rw [if_pos hpos]
  · rw [if_neg hpos]
    rw [searchDispatch_eq_naive]
    have hnone : naive_search (it.haystack.drop it.pos) it.needle = none := by
      unfold naive_search
      rw [if_pos]
      rw [List.length_drop]
      omega
    rw [hnone]

theorem mmap_find_first_eq_head (f : MmapFinder) (algo : Algorithm)
    (hnd : f.needle ≠ []) :
    (mmapPositions f algo).head? = f.find_first algo := by
  have hm1 : 1 ≤ f.needle.length := by
    cases hn : f.needle with
    | nil => exact absurd hn hnd
    | cons a l => simp
  unfold mmapPositions MmapFinder.find_all MmapFinder.find_first
  rw [mmapPositionsAux]
  unfold MmapFinderIter.next
  dsimp only
  by_cases hlen : f.mmap.length ≤ 0
  · rw [if_pos hlen]
    have hz : f.mmap.length = 0 := by omega
    rw [searchDispatch_eq_naive]
    have : naive_search f.mmap f.needle = none := by
      unfold naive_search
      rw [if_pos]
      omega
    rw [this]
    rfl
  · rw [if_neg hlen, List.drop_zero]
    cases hfs : searchDispatch algo f.mmap f.needle with
    | some i =>
      simp only [Nat.zero_add]
      rfl
    | none => rfl

/-! ### Streaming finder (`src/finder.rs`)

The `Read` source is modelled as a byte stream plus a schedule: the k-th
`read` call into a slice of capacity `cap` delivers the next
`min (sched k) (min cap remaining)` bytes of the stream, and `sched k = none`
models a read error. A `Cursor` over the whole stream corresponds to a
schedule that always allows at least the stream length. -/

inductive FinderError where
  | EmptyNeedle
  | BufferTooSmall
deriving DecidableEq

/-- `DEFAULT_BUF_SIZE` (8 KiB). -/
def DEFAULT_BUF_SIZE : ℕ := 8 * 1024

structure FinderState where
  stream : List ℕ
  sched : ℕ → Option ℕ
  reads : ℕ
  consumed : ℕ
  needle : List ℕ
  buffer : List ℕ
  haystackPos : ℕ
  bufferPos : ℕ
  bufferFillLen : ℕ
  algo : Algorithm
  requestedBufferSize : ℕ

/-- One `self.haystack.read(&mut self.buffer[off..off+cap])` call:
the returned byte count (`none` = `Err(e)`) and the updated state. -/
def readInto (st : FinderState) (off cap : ℕ) : Option ℕ × FinderState :=
  match st.sched st.reads with
  | none => (none, { st with reads := st.reads + 1 })
  | some s =>
    let n := min s (min cap (st.stream.length - st.consumed))
    (some n,
     { st with
        reads := st.reads + 1
        consumed := st.consumed + n
        buffer := st.buffer.take off ++ (st.stream.drop st.consumed).take n ++
          st.buffer.drop (off + n) })

/-- `FinderTrait::with_buffer_size` for `Finder` (`src/finder.rs` 72-96). -/
def Finder.with_buffer_size (stream : List ℕ) (sched : ℕ → Option ℕ)
    (needle : List ℕ) (bufferSize : ℕ) (algo : Option Algorithm) :
    Except FinderError FinderState :=
  if needle = [] then Except.error FinderError.EmptyNeedle
  else if bufferSize < needle.length then Except.error FinderError.BufferTooSmall
  else Except.ok
    { stream := stream
      sched := sched
      reads := 0
      consumed := 0
      needle := needle
      buffer := List.replicate (bufferSize + (needle.length - 1)) 0
      haystackPos := 0
      bufferPos := 0
      bufferFillLen := 0
      algo := algo.getD Algorithm.Naive
      requestedBufferSize := bufferSize }

/-- `FinderTrait::new` (`src/finder.rs` 55-63). -/
def Finder.new (stream : List ℕ) (sched : ℕ → Option ℕ) (needle : List ℕ)
    (algo : Option Algorithm) : Except FinderError FinderState :=
  if needle = [] then Except.error FinderError.EmptyNeedle
  else if DEFAULT_BUF_SIZE < needle.length then
    Except.error FinderError.BufferTooSmall
  else Finder.with_buffer_size stream sched needle DEFAULT_BUF_SIZE algo

/-- `FinderTrait::with_algorithm` (`src/finder.rs` 104-112). -/
def Finder.with_algorithm (stream : List ℕ) (sched : ℕ → Option ℕ)
    (needle : List ℕ) (algo : Algorithm) : Except FinderError FinderState :=
  if needle = [] then Except.error FinderError.EmptyNeedle
  else if DEFAULT_BUF_SIZE < needle.length then
    Except.error FinderError.BufferTooSmall
  else Finder.with_buffer_size stream sched needle DEFAULT_BUF_SIZE (some algo)

/-- The refill branch at the top of `Finder::next` (lines 122-137):
fold the consumed bytes into the absolute offset, reset the cursor and
fill, read from the buffer start; `Ok(0)` ends the iteration, an error is
yielded, and a short first read (`haystack_pos == 0 && n < needle.len()`)
also ends the iteration. `Sum.inl` is an immediate return, `Sum.inr` the
state in which scanning continues. -/
def finderRefillBase (st0 : FinderState) : FinderState :=
  { st0 with
    haystackPos := st0.haystackPos + st0.bufferPos
    bufferFillLen := 0
    bufferPos := 0 }

def finderRefill (st0 : FinderState) :
    (Option (Except Unit ℕ) × FinderState) ⊕ FinderState :=
  if st0.bufferFillLen ≤ st0.bufferPos then
    match readInto (finderRefillBase st0) 0 (finderRefillBase st0).buffer.length with
    | (none, st2) => Sum.inl (some (Except.error ()), st2)
    | (some 0, st2) => Sum.inl (none, st2)
    | (some (n + 1), st2) =>
      if st2.haystackPos = 0 ∧ n + 1 < st2.needle.length then
        Sum.inl (none, { st2 with bufferFillLen := n + 1 })
      else Sum.inr { st2 with bufferFillLen := n + 1 }
  else Sum.inr st0

/-- The compaction step (lines 159-167): copy the last `needle.len()-1`
bytes to the buffer start when the buffer is full, folding the discarded
prefix into the absolute offset; otherwise leave the state unchanged. -/
def finderCompact (st : FinderState) : FinderState :=
  if st.buffer.length ≤ st.bufferFillLen then
    { st with
        buffer :=
          ((st.buffer.drop (st.bufferFillLen - (st.needle.length - 1))).take
            (st.needle.length - 1)) ++ st.buffer.drop (st.needle.length - 1)
        bufferFillLen := st.needle.length - 1
        bufferPos := 0
        haystackPos := st.haystackPos + (st.buffer.length - (st.needle.length - 1)) }
  else st

/-- The window-advance step (lines 173-179). -/
def finderAdvance (st : FinderState) : FinderState :=
  { st with
      haystackPos := st.haystackPos +
        ((st.bufferFillLen - st.bufferPos) - (st.needle.length - 1))
      bufferPos := st.bufferPos +
        ((st.bufferFillLen - st.bufferPos) - (st.needle.length - 1)) }

/-- `Finder::next` (lines 120-181): the `loop` is rendered as fuel-bounded
recursion; every non-returning arm recurses. An item of
`some (Except.ok p)` is a match at absolute position `p`,
`some (Except.error ())` a surfaced read error, `none` the end of
iteration. -/
def finderNext : ℕ → FinderState → Option (Except Unit ℕ) × FinderState
  | 0, st => (none, st)
  | fuel + 1, st0 =>
    match finderRefill st0 with
    | Sum.inl r => r
    | Sum.inr st =>
      match searchDispatch st.algo
          (slice st.buffer st.bufferPos (st.bufferFillLen - st.bufferPos))
          st.needle with
      | some i =>
        (some (Except.ok (st.haystackPos + (st.bufferPos + i))),
         { st with bufferPos := st.bufferPos + i + 1 })
      | none =>
        if st.bufferFillLen < st.bufferPos + st.needle.length then
          match readInto (finderCompact st) (finderCompact st).bufferFillLen
              ((finderCompact st).buffer.length -
                (finderCompact st).bufferFillLen) with
          | (none, st5) => (some (Except.error ()), st5)
          | (some 0, st5) => (none, st5)
          | (some (n + 1), st5) =>
            finderNext fuel
              { st5 with bufferFillLen := (finderCompact st).bufferFillLen + (n + 1) }
        else finderNext fuel (finderAdvance st)

/-- Ample fuel for one `next()` call on this state's stream. -/
def finderInnerFuel (st : FinderState) : ℕ := 2 * st.stream.length + 8

/-- Repeated `next()` calls until `None`, collecting the yielded items. -/
def finderItems : ℕ → FinderState → List (Except Unit ℕ)
  | 0, _ => []
  | fuel + 1, st =>
    match finderNext (finderInnerFuel st) st with
    | (none, _) => []
    | (some r, st2) => r :: finderItems fuel st2

/-- The match positions among the yielded items. -/
def finderPositions (fuel : ℕ) (st : FinderState) : List ℕ :=
  (finderItems fuel st).filterMap
    (fun r => match r with
      | Except.ok p => some p
      | Except.error _ => none)

/-- Drive a constructed finder over its whole stream. -/
def finderRun (r : Except FinderError FinderState) : List ℕ :=
  match r with
  | Except.error _ => []
  | Except.ok st => finderPositions (st.stream.length + 2) st

/-- A `Cursor`-like schedule: every read may deliver as much as fits. -/
def fullSched (stream : List ℕ) : ℕ → Option ℕ := fun _ => some stream.length

/-- A fixed chunk-size schedule: every read delivers at most `c` bytes. -/
def chunkSched (c : ℕ) : ℕ → Option ℕ := fun _ => some c

theorem finderRefill_inl_shape (st : FinderState)
    (r : Option (Except Unit ℕ) × FinderState)
    (h : finderRefill st = Sum.inl r) :
    r.1 = none ∨ r.1 = some (Except.error ()) := by
  unfold finderRefill at h
  split at h
  · rcases hread : readInto (finderRefillBase st) 0
        (finderRefillBase st).buffer.length with ⟨rn, st2⟩
    rw [hread] at h
    cases rn with
    | none =>
      dsimp only at h
      obtain rfl : (some (Except.error ()), st2) = r := by simpa using h
      exact Or.inr rfl
    | some n =>
      cases n with
      | zero =>
        dsimp only at h
        obtain rfl : ((none : Option (Except Unit ℕ)), st2) = r := by
          simpa using h
        exact Or.inl rfl
      | succ n =>
        dsimp only at h
        split at h
        · obtain rfl : ((none : Option (Except Unit ℕ)),
              { st2 with bufferFillLen := n + 1 }) = r := by
            simpa using h
          exact Or.inl rfl
        · exact absurd h (by simp)
  · exact absurd h (by simp)

theorem finderNext_ok_resume :
    ∀ (fuel : ℕ) (st : FinderState) (p : ℕ) (st2 : FinderState),
      finderNext fuel st = (some (Except.ok p), st2) →
      st2.haystackPos + st2.bufferPos = p + 1 := by
  intro fuel
  induction fuel with
  | zero =>
    intro st p st2 h
    exact absurd h (by simp [finderNext])
  | succ fuel ih =>
    intro st p st2 h
    rw [finderNext] at h
    cases hrf : finderRefill st with
    | inl r =>
      rw [hrf] at h
      dsimp only at h
      have hshape := finderRefill_inl_shape st r hrf
      rw [h] at hshape
      rcases hshape with h1 | h1 <;> simp at h1
    | inr st1 =>
      rw [hrf] at h
      dsimp only at h
      cases hfs : searchDispatch st1.algo
          (slice st1.buffer st1.bufferPos (st1.bufferFillLen - st1.bufferPos))
          st1.needle with
      | some i =>
        rw [hfs] at h
        dsimp only at h
        rw [Prod.mk.injEq] at h
        obtain ⟨h1, h2⟩ := h
        obtain rfl : st1.haystackPos + (st1.bufferPos + i) = p := by
          simpa using h1
        rw [← h2]
        simp
        omega
      | none =>
        rw [hfs] at h
        dsimp only at h
        split at h
        · rcases hread : readInto (finderCompact st1) (finderCompact st1).bufferFillLen
              ((finderCompact st1).buffer.length - (finderCompact st1).bufferFillLen) with
            ⟨rn, st5⟩
          rw [hread] at h
          match rn, h with
          | none, h =>
            dsimp only at h
            rw [Prod.mk.injEq] at h
            exact absurd h.1 (by simp)
          | some 0, h =>
            dsimp only at h
            rw [Prod.mk.injEq] at h
            exact absurd h.1 (by simp)
          | some (n + 1), h =>
            exact ih _ p st2 h
        · exact ih _ p st2 h

/-! ### Algorithm choice does not influence either finder's output -/

/-- Replace only the algorithm selector of a finder state. -/
def setAlgo (st : FinderState) (a : Algorithm) : FinderState := { st with algo := a }

theorem readInto_setAlgo (st : FinderState) (a : Algorithm) (off cap : ℕ) :
    readInto (setAlgo st a) off cap =
      ((readInto st off cap).1, setAlgo (readInto st off cap).2 a) := by
  unfold readInto setAlgo
  cases st.sched st.reads <;> rfl

theorem finderRefillBase_setAlgo (st : FinderState) (a : Algorithm) :
    finderRefillBase (setAlgo st a) = setAlgo (finderRefillBase st) a := rfl

theorem finderCompact_setAlgo (st : FinderState) (a : Algorithm) :
    finderCompact (setAlgo st a) = setAlgo (finderCompact st) a := by
  unfold finderCompact setAlgo
  dsimp only
  split <;> rfl

theorem finderAdvance_setAlgo (st : FinderState) (a : Algorithm) :
    finderAdvance (setAlgo st a) = setAlgo (finderAdvance st) a := rfl

theorem finderRefill_setAlgo (st : FinderState) (a : Algorithm) :
    finderRefill (setAlgo st a) =
      (match finderRefill st with
        | Sum.inl r => Sum.inl (r.1, setAlgo r.2 a)
        | Sum.inr st2 => Sum.inr (setAlgo st2 a)) := by
  rcases hread : readInto (finderRefillBase st) 0
      (finderRefillBase st).buffer.length with ⟨rn, st2⟩
  unfold finderRefill
  rw [show (setAlgo st a).bufferFillLen = st.bufferFillLen from rfl,
    show (setAlgo st a).bufferPos = st.bufferPos from rfl,
    finderRefillBase_setAlgo,
    show (setAlgo (finderRefillBase st) a).buffer.length =
      (finderRefillBase st).buffer.length from rfl,
    readInto_setAlgo, hread]
  by_cases hc : st.bufferFillLen ≤ st.bufferPos
  · rw [if_pos hc, if_pos hc]
    dsimp only [setAlgo]
    cases rn with
    | none => rfl
    | some n =>
      cases n with
      | zero => rfl
      | succ n =>
        dsimp only
        by_cases hcc : st2.haystackPos = 0 ∧ n + 1 < st2.needle.length
        · rw [if_pos hcc, if_pos hcc]
        · rw [if_neg hcc, if_neg hcc]
  · rw [if_neg hc, if_neg hc]

theorem finderNext_setAlgo :
    ∀ (fuel : ℕ) (st : FinderState) (a : Algorithm),
      finderNext fuel (setAlgo st a) =
        ((finderNext fuel st).1, setAlgo (finderNext fuel st).2 a) := by
  intro fuel
  induction fuel with
  | zero => intro st a; rfl
  | succ fuel ih =>
    intro st a
    rw [finderNext, finderNext, finderRefill_setAlgo]
    cases hrf : finderRefill st with
    | inl r => rfl
    | inr st1 =>
      dsimp only
      have hdisp : searchDispatch (setAlgo st1 a).algo
          (slice (setAlgo st1 a).buffer (setAlgo st1 a).bufferPos
            ((setAlgo st1 a).bufferFillLen - (setAlgo st1 a).bufferPos))
          (setAlgo st1 a).needle =
          searchDispatch st1.algo
            (slice st1.buffer st1.bufferPos (st1.bufferFillLen - st1.bufferPos))
            st1.needle := by
        rw [searchDispatch_eq_naive, searchDispatch_eq_naive]
        rfl
      rw [hdisp]
      cases hfs : searchDispatch st1.algo
          (slice st1.buffer st1.bufferPos (st1.bufferFillLen - st1.bufferPos))
          st1.needle with
      | some i => rfl
      | none =>
        dsimp only [setAlgo]
        by_cases hneed : st1.bufferFillLen < st1.bufferPos + st1.needle.length
        · rw [if_pos hneed, if_pos hneed]
          have hcompact := finderCompact_setAlgo st1 a
          rw [show ({ st1 with algo := a } : FinderState) = setAlgo st1 a from rfl,
            hcompact]
          rw [show (setAlgo (finderCompact st1) a).bufferFillLen =
            (finderCompact st1).bufferFillLen from rfl]
          rw [show (setAlgo (finderCompact st1) a).buffer.length =
            (finderCompact st1).buffer.length from rfl]
          rw [readInto_setAlgo]
          rcases hread : readInto (finderCompact st1) (finderCompact st1).bufferFillLen
              ((finderCompact st1).buffer.length - (finderCompact st1).bufferFillLen) with
            ⟨rn, st5⟩
          cases rn with
          | none => rfl
          | some n =>
            cases n with
            | zero => rfl
            | succ n =>
              dsimp only
              rw [show ({ setAlgo st5 a with
                  bufferFillLen := (finderCompact st1).bufferFillLen + (n + 1) } :
                    FinderState) =
                setAlgo { st5 with
                  bufferFillLen := (finderCompact st1).bufferFillLen + (n + 1) } a
                from rfl]
              rw [ih]
              rfl
        · rw [if_neg hneed, if_neg hneed]
          rw [show ({ st1 with algo := a } : FinderState) = setAlgo st1 a from rfl,
            finderAdvance_setAlgo, ih]
          rfl

theorem finderItems_setAlgo :
    ∀ (fuel : ℕ) (st : FinderState) (a : Algorithm),
      finderItems fuel (setAlgo st a) = finderItems fuel st := by
  intro fuel
  induction fuel with
  | zero => intro st a; rfl
  | succ fuel ih =>
    intro st a
    rw [finderItems, finderItems]
    have hfuel : finderInnerFuel (setAlgo st a) = finderInnerFuel st := rfl
    rw [hfuel, finderNext_setAlgo]
    cases hnx : finderNext (finderInnerFuel st) st with
    | mk r st2 =>
      cases r with
      | none => rfl
      | some v =>
        dsimp only
        rw [ih]

theorem mmapPositionsAux_algo :
    ∀ (fuel : ℕ) (hay nd : List ℕ) (pos : ℕ) (a b : Algorithm),
      mmapPositionsAux fuel ⟨hay, nd, a, pos⟩ =
        mmapPositionsAux fuel ⟨hay, nd, b, pos⟩ := by
  intro fuel
  induction fuel with
  | zero => intro hay nd pos a b; rfl
  | succ fuel ih =>
    intro hay nd pos a b
    rw [mmapPositionsAux, mmapPositionsAux]
    unfold MmapFinderIter.next
    dsimp only
    by_cases hpos : hay.length ≤ pos
    · rw [if_pos hpos, if_pos hpos]
    · rw [if_neg hpos, if_neg hpos, searchDispatch_eq_naive,
        searchDispatch_eq_naive]
      cases hnv : naive_search (hay.drop pos) nd with
      | none => rfl
      | some i =>
        dsimp only
        rw [ih hay nd (pos + i + 1) a b]

/-! ### Buffer-state invariant of the streaming finder -/

/-- The state invariant of `Finder`: cursor within fill, fill within the
buffer, buffer capacity fixed at `requested + needle.len() - 1`, with a
valid needle. -/
def FinderInv (st : FinderState) : Prop :=
  st.bufferPos ≤ st.bufferFillLen ∧
  st.bufferFillLen ≤ st.buffer.length ∧
  st.buffer.length = st.requestedBufferSize + (st.needle.length - 1) ∧
  st.needle ≠ [] ∧
  st.needle.length ≤ st.requestedBufferSize

instance : DecidablePred FinderInv := fun st => by
  unfold FinderInv
  infer_instance

theorem readInto_spec (st : FinderState) (off cap : ℕ)
    (hoff : off + cap ≤ st.buffer.length) :
    (∀ n, (readInto st off cap).1 = some n → n ≤ cap) ∧
    (readInto st off cap).2.buffer.length = st.buffer.length ∧
    (readInto st off cap).2.needle = st.needle ∧
    (readInto st off cap).2.requestedBufferSize = st.requestedBufferSize ∧
    (readInto st off cap).2.bufferPos = st.bufferPos ∧
    (readInto st off cap).2.bufferFillLen = st.bufferFillLen := by
  unfold readInto
  cases hs : st.sched st.reads with
  | none => exact ⟨fun n h => by simp at h, rfl, rfl, rfl, rfl, rfl⟩
  | some s =>
    dsimp only
    refine ⟨fun n h => ?_, ?_, rfl, rfl, rfl, rfl⟩
    · obtain rfl : min s (min cap (st.stream.length - st.consumed)) = n := by
        simpa using h
      omega
    · simp only [List.length_append, List.length_take, List.length_drop]
      omega

theorem finderRefillBase_inv (st : FinderState) (h : FinderInv st) :
    FinderInv (finderRefillBase st) := by
  obtain ⟨h1, h2, h3, h4, h5⟩ := h
  exact ⟨Nat.le_refl 0, Nat.zero_le _, h3, h4, h5⟩

theorem finderRefill_inv (st : FinderState) (h : FinderInv st) :
    (∀ r, finderRefill st = Sum.inl r → FinderInv r.2) ∧
    (∀ st1, finderRefill st = Sum.inr st1 → FinderInv st1) := by
  have hbase := finderRefillBase_inv st h
  obtain ⟨b1, b2, b3, b4, b5⟩ := hbase
  have hrd := readInto_spec (finderRefillBase st) 0 (finderRefillBase st).buffer.length
    (by omega)
  obtain ⟨r1, r2, r3, r4, r5, r6⟩ := hrd
  have hpos0 : (finderRefillBase st).bufferPos = 0 := rfl
  have hfill0 : (finderRefillBase st).bufferFillLen = 0 := rfl
  have hInvRead : ∀ fl, fl ≤ (finderRefillBase st).buffer.length →
      FinderInv { (readInto (finderRefillBase st) 0
        (finderRefillBase st).buffer.length).2 with bufferFillLen := fl } := by
    intro fl hfl
    refine ⟨?_, ?_, ?_, ?_, ?_⟩ <;> dsimp only
    · rw [r5, hpos0]; omega
    · rw [r2]; omega
    · rw [r2, r3, r4]; exact b3
    · rw [r3]; exact b4
    · rw [r3, r4]; exact b5
  have hInvRead0 : FinderInv (readInto (finderRefillBase st) 0
      (finderRefillBase st).buffer.length).2 := by
    refine ⟨?_, ?_, ?_, ?_, ?_⟩
    · rw [r5, r6, hpos0, hfill0]
    · rw [r6, hfill0]; omega
    · rw [r2, r3, r4]; exact b3
    · rw [r3]; exact b4
    · rw [r3, r4]; exact b5
  constructor
  · intro r hr
    unfold finderRefill at hr
    split at hr
    · rcases hread : readInto (finderRefillBase st) 0
          (finderRefillBase st).buffer.length with ⟨rn, st2⟩
      rw [hread] at hr
      cases rn with
      | none =>
        dsimp only at hr
        obtain rfl : (some (Except.error ()), st2) = r := by simpa using hr
        have := hInvRead0
        rwa [hread] at this
      | some n =>
        cases n with
        | zero =>
          dsimp only at hr
          obtain rfl : ((none : Option (Except Unit ℕ)), st2) = r := by
            simpa using hr
          have := hInvRead0
          rwa [hread] at this
        | succ n =>
          dsimp only at hr
          split at hr
          · obtain rfl : ((none : Option (Except Unit ℕ)),
                { st2 with bufferFillLen := n + 1 }) = r := by simpa using hr
            have hn1 : n + 1 ≤ (finderRefillBase st).buffer.length := by
              have := r1 (n + 1) (by rw [hread])
              omega
            have := hInvRead (n + 1) hn1
            rwa [hread] at this
          · exact absurd hr (by simp)
    · exact absurd hr (by simp)
  · intro st1 hr
    unfold finderRefill at hr
    split at hr
    · rcases hread : readInto (finderRefillBase st) 0
          (finderRefillBase st).buffer.length with ⟨rn, st2⟩
      rw [hread] at hr
      cases rn with
      | none => exact absurd hr (by simp)
      | some n =>
        cases n with
        | zero => exact absurd hr (by simp)
        | succ n =>
          dsimp only at hr
          split at hr
          · exact absurd hr (by simp)
          · obtain rfl : ({ st2 with bufferFillLen := n + 1 } : FinderState) = st1 := by
              simpa using hr
            have hn1 : n + 1 ≤ (finderRefillBase st).buffer.length := by
              have := r1 (n + 1) (by rw [hread])
              omega
            have := hInvRead (n + 1) hn1
            rwa [hread] at this
    · obtain rfl : st = st1 := by simpa using hr
      exact h

theorem finderCompact_inv (st : FinderState) (h : FinderInv st) :
    FinderInv (finderCompact st) ∧
    (finderCompact st).buffer.length = st.buffer.length ∧
    (finderCompact st).needle = st.needle ∧
    (finderCompact st).requestedBufferSize = st.requestedBufferSize ∧
    (finderCompact st).bufferFillLen ≤ st.buffer.length := by
  obtain ⟨h1, h2, h3, h4, h5⟩ := h
  have hm1 : 1 ≤ st.needle.length := by
    cases hn : st.needle with
    | nil => exact absurd hn h4
    | cons a l => simp
  unfold finderCompact
  split
  · rename_i hfull
    have hfill : st.bufferFillLen = st.buffer.length := by omega
    have hlen : (((st.buffer.drop (st.bufferFillLen - (st.needle.length - 1))).take
        (st.needle.length - 1)) ++ st.buffer.drop (st.needle.length - 1)).length =
        st.buffer.length := by
      simp only [List.length_append, List.length_take, List.length_drop]
      omega
    refine ⟨⟨?_, ?_, ?_, h4, h5⟩, ?_, rfl, rfl, ?_⟩ <;> dsimp only
    · omega
    · rw [hlen]; omega
    · rw [hlen]; exact h3
    · rw [hlen]
    · omega
  · exact ⟨⟨h1, h2, h3, h4, h5⟩, rfl, rfl, rfl, by omega⟩

theorem finderAdvance_inv (st : FinderState) (h : FinderInv st) :
    FinderInv (finderAdvance st) := by
  obtain ⟨h1, h2, h3, h4, h5⟩ := h
  exact ⟨by unfold finderAdvance; dsimp only; omega, h2, h3, h4, h5⟩

theorem finderNext_inv :
    ∀ (fuel : ℕ) (st : FinderState), FinderInv st →
      FinderInv (finderNext fuel st).2 := by
  intro fuel
  induction fuel with
  | zero => intro st h; exact h
  | succ fuel ih =>
    intro st h
    rw [finderNext]
    cases hrf : finderRefill st with
    | inl r =>
      exact (finderRefill_inv st h).1 r hrf
    | inr st1 =>
      have hinv1 : FinderInv st1 := (finderRefill_inv st h).2 st1 hrf
      obtain ⟨h1, h2, h3, h4, h5⟩ := hinv1
      have hm1 : 1 ≤ st1.needle.length := by
        cases hn : st1.needle with
        | nil => exact absurd hn h4
        | cons a l => simp
      dsimp only
      cases hfs : searchDispatch st1.algo
          (slice st1.buffer st1.bufferPos (st1.bufferFillLen - st1.bufferPos))
          st1.needle with
      | some i =>
        rw [searchDispatch_eq_naive] at hfs
        obtain ⟨-, hmatch, -⟩ := (naive_search_eq_some _ _ _).mp hfs
        have hbound := hmatch.1
        rw [slice_length] at hbound
        exact ⟨by dsimp only; omega, h2, h3, h4, h5⟩
      | none =>
        dsimp only
        by_cases hneed : st1.bufferFillLen < st1.bufferPos + st1.needle.length
        · rw [if_pos hneed]
          obtain ⟨hc1, hc2, hc3, hc4, hc5⟩ := finderCompact_inv st1 ⟨h1, h2, h3, h4, h5⟩
          obtain ⟨d1, d2, d3, d4, d5⟩ := hc1
          have hrd := readInto_spec (finderCompact st1) (finderCompact st1).bufferFillLen
            ((finderCompact st1).buffer.length - (finderCompact st1).bufferFillLen)
            (by omega)
          rcases hread : readInto (finderCompact st1) (finderCompact st1).bufferFillLen
              ((finderCompact st1).buffer.length - (finderCompact st1).bufferFillLen) with
            ⟨rn, st5⟩
          obtain ⟨r1, r2, r3, r4, r5, r6⟩ := hrd
          rw [hread] at r1 r2 r3 r4 r5 r6
          dsimp only at r1 r2 r3 r4 r5 r6
          cases rn with
          | none =>
            dsimp only
            exact ⟨by rw [r5, r6]; exact d1, by rw [r6, r2]; omega,
              by rw [r2, r3, r4]; exact d3, by rw [r3]; exact d4,
              by rw [r3, r4]; exact d5⟩
          | some n =>
            cases n with
            | zero =>
              dsimp only
              exact ⟨by rw [r5, r6]; exact d1, by rw [r6, r2]; omega,
                by rw [r2, r3, r4]; exact d3, by rw [r3]; exact d4,
                by rw [r3, r4]; exact d5⟩
            | succ n =>
              dsimp only
              apply ih
              have hn1 := r1 (n + 1) rfl
              refine ⟨?_, ?_, ?_, ?_, ?_⟩ <;> dsimp only
              · rw [r5]; omega
              · rw [r2]; omega
              · rw [r2, r3, r4]; exact d3
              · rw [r3]; exact d4
              · rw [r3, r4]; exact d5
        · rw [if_neg hneed]
          exact ih _ (finderAdvance_inv st1 ⟨h1, h2, h3, h4, h5⟩)

theorem with_buffer_size_ok_inv (stream : List ℕ) (sched : ℕ → Option ℕ)
    (needle : List ℕ) (bufferSize : ℕ) (algo : Option Algorithm)
    (st : FinderState)
    (h : Finder.with_buffer_size stream sched needle bufferSize algo =
      Except.ok st) :
    FinderInv st := by
  unfold Finder.with_buffer_size at h
  by_cases h1 : needle = []
  · rw [if_pos h1] at h
    exact absurd h (by simp)
  · rw [if_neg h1] at h
    by_cases h2 : bufferSize < needle.length
    · rw [if_pos h2] at h
      exact absurd h (by simp)
    · rw [if_neg h2] at h
      simp only [Except.ok.injEq] at h
      subst h
      refine ⟨Nat.le_refl 0, Nat.zero_le _, ?_, h1, Nat.le_of_not_lt h2⟩
      show (List.replicate (bufferSize + (needle.length - 1)) 0).length =
        bufferSize + (needle.length - 1)
      exact List.length_replicate _ _

theorem new_ok_inv (stream : List ℕ) (sched : ℕ → Option ℕ)
    (needle : List ℕ) (algo : Option Algorithm) (st : FinderState)
    (h : Finder.new stream sched needle algo = Except.ok st) :
    FinderInv st := by
  unfold Finder.new at h
  by_cases h1 : needle = []
  · rw [if_pos h1] at h
    exact absurd h (by simp)
  · rw [if_neg h1] at h
    by_cases h2 : DEFAULT_BUF_SIZE < needle.length
    · rw [if_pos h2] at h
      exact absurd h (by simp)
    · rw [if_neg h2] at h
      exact with_buffer_size_ok_inv _ _ _ _ _ _ h

theorem with_algorithm_ok_inv (stream : List ℕ) (sched : ℕ → Option ℕ)
    (needle : List ℕ) (algo : Algorithm) (st : FinderState)
    (h : Finder.with_algorithm stream sched needle algo = Except.ok st) :
    FinderInv st := by
  unfold Finder.with_algorithm at h
  by_cases h1 : needle = []
  · rw [if_pos h1] at h
    exact absurd h (by simp)
  · rw [if_neg h1] at h
    by_cases h2 : DEFAULT_BUF_SIZE < needle.length
    · rw [if_pos h2] at h
      exact absurd h (by simp)
    · rw [if_neg h2] at h
      exact with_buffer_size_ok_inv _ _ _ _ _ _ h

/-! ### Concrete scenarios used by the claim theorems -/

/-- The state a successful `with_buffer_size` construction produces. -/
def finderState0 (stream : List ℕ) (sched : ℕ → Option ℕ) (nd : List ℕ)
    (bs : ℕ) (a : Algorithm) : FinderState :=
  { stream := stream, sched := sched, reads := 0, consumed := 0, needle := nd,
    buffer := List.replicate (bs + (nd.length - 1)) 0, haystackPos := 0,
    bufferPos := 0, bufferFillLen := 0, algo := a, requestedBufferSize := bs }

/-- A source whose first read delivers 0 bytes and whose later reads deliver
up to 10 bytes (e.g. a file that grows, or a socket that was briefly idle). -/
def resumeSched : ℕ → Option ℕ := fun k => if k = 0 then some 0 else some 10

/-- A source whose first read fails and whose later reads deliver up to
10 bytes. -/
def errReadSched : ℕ → Option ℕ := fun k => if k = 0 then none else some 10

/-- `"hello world hello universe"`. -/
def helloHay : List ℕ :=
  [104, 101, 108, 108, 111, 32, 119, 111, 114, 108, 100, 32,
   104, 101, 108, 108, 111, 32, 117, 110, 105, 118, 101, 114, 115, 101]

/-- `"hello"`. -/
def helloNd : List ℕ := [104, 101, 108, 108, 111]

/-! ### The claims -/

/-- Claim C1: all five matchers agree with the brute-force reference on every
(window, needle) pair, and consequently driving the streaming finder or the
mmap iterator with any algorithm produces the identical item sequence. -/
theorem claim_C1_matchers_agree :
    (∀ hay nd : List ℕ,
      bmh_search hay nd = naive_search hay nd ∧
      kmp_search hay nd = naive_search hay nd ∧
      simd_search hay nd = naive_search hay nd ∧
      simd_search_x86_64 hay nd = naive_search hay nd) ∧
    (∀ (fuel : ℕ) (st : FinderState) (a b : Algorithm),
      finderItems fuel (setAlgo st a) = finderItems fuel (setAlgo st b)) ∧
    (∀ (fuel : ℕ) (hay nd : List ℕ) (pos : ℕ) (a b : Algorithm),
      mmapPositionsAux fuel ⟨hay, nd, a, pos⟩ =
        mmapPositionsAux fuel ⟨hay, nd, b, pos⟩) := by
  refine ⟨fun hay nd => ⟨bmh_search_eq_naive hay nd, kmp_search_eq_naive hay nd,
    simd_search_eq_naive hay nd, simd_search_x86_64_eq_naive hay nd⟩, ?_, ?_⟩
  · intro fuel st a b
    rw [finderItems_setAlgo, finderItems_setAlgo]
  · intro fuel hay nd pos a b
    exact mmapPositionsAux_algo fuel hay nd pos a b

/-- Claim C2 is refuted (code bug): the streaming finder's output is not
invariant under the read-chunk size.  Stream `"ab"`, needle `"ab"`,
buffer size 4: a full read yields `[0]` but 1-byte reads yield `[]`
(the first refill sees 1 byte < needle length at `haystack_pos = 0` and
`Finder::next` returns `None`, `src/finder.rs` lines 130-134).  Moreover with
buffer size 2 on `"xxab"` the only occurrence of `"ab"` is at 2, yet the
finder reports `[4]`: the advance branch adds the advance to both
`haystack_pos` and `buffer_pos` (lines 172-178), double-counting bytes that
the refill base-offset fold (lines 124-126) counts again. -/
theorem claim_C2_chunk_invariance_refuted :
    finderRun (Finder.with_buffer_size [97, 98] (fullSched [97, 98])
      [97, 98] 4 none) = [0] ∧
    finderRun (Finder.with_buffer_size [97, 98] (chunkSched 1)
      [97, 98] 4 none) = [] ∧
    naive_search [120, 120, 97, 98] [97, 98] = some 2 ∧
    finderRun (Finder.with_buffer_size [120, 120, 97, 98]
      (fullSched [120, 120, 97, 98]) [97, 98] 2 none) = [4] :=
  ⟨by decide, by decide, by decide, by decide⟩

/-- Claim C3: every matcher (through `searchDispatch`) returns `some i` exactly
when `i` is the smallest offset at which the needle occurs in full, `none`
exactly when no such offset exists (in particular when the needle is empty),
and `none` whenever the window is shorter than the needle.  Each matcher is a
pure Lean function of (window, needle), so statelessness is inherent in the
embedding. -/
theorem claim_C3_leftmost_contract :
    ∀ (a : Algorithm) (hay nd : List ℕ),
      (∀ i, searchDispatch a hay nd = some i ↔
        (nd ≠ [] ∧ matchAt hay nd i ∧ ∀ j < i, ¬ matchAt hay nd j)) ∧
      (searchDispatch a hay nd = none ↔
        (nd = [] ∨ ∀ i, ¬ matchAt hay nd i)) ∧
      (hay.length < nd.length → searchDispatch a hay nd = none) := by
  intro a hay nd
  refine ⟨?_, ?_, ?_⟩
  · intro i
    rw [searchDispatch_eq_naive]
    exact naive_search_eq_some hay nd i
  · rw [searchDispatch_eq_naive]
    exact naive_search_eq_none hay nd
  · intro hshort
    rw [searchDispatch_eq_naive]
    exact (naive_search_eq_none hay nd).mpr
      (Or.inr fun i => matchAt_false_of_short hay nd i (by omega))

/-- Witness for C3 at concrete inputs: a short window yields `none`, and the
leftmost occurrence of `[1,2]` in `[5,1,2,1,2]` is reported. -/
theorem claim_C3_witness :
    searchDispatch Algorithm.Kmp [1, 2] [1, 2, 3] = none ∧
    searchDispatch Algorithm.Bmh [5, 1, 2, 1, 2] [1, 2] = some 1 := by
  constructor
  · exact (claim_C3_leftmost_contract Algorithm.Kmp [1, 2] [1, 2, 3]).2.2
      (by decide)
  · exact ((claim_C3_leftmost_contract Algorithm.Bmh [5, 1, 2, 1, 2]
      [1, 2]).1 1).mpr ⟨by decide, by decide, by decide⟩

/-- Claim C4 is refuted (code bug): a positive read does terminate the
iteration when it is the first read and delivers fewer bytes than the needle.
Stream `"ab"`, needle `"ab"`, buffer size 4, 1-byte reads: construction
succeeds, the needle does occur at 0 (and a full read reports it), yet the
very first `next()` returns `None` — `src/finder.rs` lines 130-134 return
`None` when `haystack_pos == 0 && n < self.needle.len()`. -/
theorem claim_C4_short_first_read_refuted :
    Finder.with_buffer_size [97, 98] (chunkSched 1) [97, 98] 4 none =
      Except.ok (finderState0 [97, 98] (chunkSched 1) [97, 98] 4
        Algorithm.Naive) ∧
    (finderNext
      (finderInnerFuel (finderState0 [97, 98] (chunkSched 1) [97, 98] 4
        Algorithm.Naive))
      (finderState0 [97, 98] (chunkSched 1) [97, 98] 4 Algorithm.Naive)).1 =
      none ∧
    matchAt [97, 98] [97, 98] 0 ∧
    finderRun (Finder.with_buffer_size [97, 98] (fullSched [97, 98])
      [97, 98] 4 none) = [0] :=
  ⟨rfl, rfl, by decide, by decide⟩

/-- Claim C5 (corrected): exhaustion is NOT permanent.  `Finder::next` has no
terminal state: every call re-runs the refill logic, so after a `None` return
(source momentarily drained) or after a yielded read error, a later call
re-reads the source and can yield a match if bytes have become available.
Stream `"ab"`, needle `"ab"`, buffer size 4: under `resumeSched` (first read
0 bytes, later reads 10) the first `next()` returns `None` and the second
yields the match at 0; under `errReadSched` (first read fails) the first
`next()` yields the error item and the second yields the match at 0. -/
theorem claim_C5_exhaustion_not_permanent :
    Finder.with_buffer_size [97, 98] resumeSched [97, 98] 4 none =
      Except.ok (finderState0 [97, 98] resumeSched [97, 98] 4
        Algorithm.Naive) ∧
    (finderNext
        (finderInnerFuel (finderState0 [97, 98] resumeSched [97, 98] 4
          Algorithm.Naive))
        (finderState0 [97, 98] resumeSched [97, 98] 4 Algorithm.Naive)).1 =
      none ∧
    (finderNext
        (finderInnerFuel ((finderNext
          (finderInnerFuel (finderState0 [97, 98] resumeSched [97, 98] 4
            Algorithm.Naive))
          (finderState0 [97, 98] resumeSched [97, 98] 4 Algorithm.Naive)).2))
        ((finderNext
          (finderInnerFuel (finderState0 [97, 98] resumeSched [97, 98] 4
            Algorithm.Naive))
          (finderState0 [97, 98] resumeSched [97, 98] 4
            Algorithm.Naive)).2)).1 = some (Except.ok 0) ∧
    (finderNext
        (finderInnerFuel (finderState0 [97, 98] errReadSched [97, 98] 4
          Algorithm.Naive))
        (finderState0 [97, 98] errReadSched [97, 98] 4 Algorithm.Naive)).1 =
      some (Except.error ()) ∧
    (finderNext
        (finderInnerFuel ((finderNext
          (finderInnerFuel (finderState0 [97, 98] errReadSched [97, 98] 4
            Algorithm.Naive))
          (finderState0 [97, 98] errReadSched [97, 98] 4 Algorithm.Naive)).2))
        ((finderNext
          (finderInnerFuel (finderState0 [97, 98] errReadSched [97, 98] 4
            Algorithm.Naive))
          (finderState0 [97, 98] errReadSched [97, 98] 4
            Algorithm.Naive)).2)).1 = some (Except.ok 0) :=
  ⟨rfl, rfl, rfl, rfl, rfl⟩

/-- Counterexample to the original C5: it is not true that after a `None`
return no later call yields a match — the `resumeSched` scenario yields the
match at 0 right after a `None`. -/
theorem claim_C5_counterexample :
    ¬ (∀ (st : FinderState) (fuel1 fuel2 : ℕ),
        (finderNext fuel1 st).1 = none →
        ∀ p : ℕ, (finderNext fuel2 (finderNext fuel1 st).2).1 ≠
          some (Except.ok p)) := by
  intro hclaim
  exact hclaim (finderState0 [97, 98] resumeSched [97, 98] 4 Algorithm.Naive)
    (finderInnerFuel (finderState0 [97, 98] resumeSched [97, 98] 4
      Algorithm.Naive))
    (finderInnerFuel ((finderNext
      (finderInnerFuel (finderState0 [97, 98] resumeSched [97, 98] 4
        Algorithm.Naive))
      (finderState0 [97, 98] resumeSched [97, 98] 4 Algorithm.Naive)).2))
    rfl 0 rfl

/-- Facts of the overlap mechanism that do hold: the mmap iterator resumes
at `p + 1` after yielding `p` and its position sequence is strictly
increasing; one streaming `next()` that yields a match at `p` leaves a state
resuming at internal position `p + 1`; and the mmap finder as well as the
streaming finder over a single-read stream report every overlapping
occurrence on the spec's two examples, for every algorithm. -/
theorem overlap_resume_facts :
    (∀ (it : MmapFinderIter) (p : ℕ) (it2 : MmapFinderIter),
      MmapFinderIter.next it = (some p, it2) →
      it.pos ≤ p ∧ it2.pos = p + 1) ∧
    (∀ (fuel : ℕ) (st : FinderState) (p : ℕ) (st2 : FinderState),
      finderNext fuel st = (some (Except.ok p), st2) →
      st2.haystackPos + st2.bufferPos = p + 1) ∧
    (∀ (fuel : ℕ) (it : MmapFinderIter),
      List.Pairwise (fun a b => a < b) (mmapPositionsAux fuel it)) ∧
    (∀ a : Algorithm,
      mmapPositions ⟨[97, 97, 97, 97, 97], [97, 97]⟩ a = [0, 1, 2, 3] ∧
      mmapPositions ⟨[97, 98, 97, 98, 97, 98], [97, 98, 97, 98]⟩ a = [0, 2] ∧
      finderRun (Finder.with_buffer_size [97, 97, 97, 97, 97]
        (fullSched [97, 97, 97, 97, 97]) [97, 97] 8 (some a)) =
        [0, 1, 2, 3] ∧
      finderRun (Finder.with_buffer_size [97, 98, 97, 98, 97, 98]
        (fullSched [97, 98, 97, 98, 97, 98]) [97, 98, 97, 98] 8 (some a)) =
        [0, 2]) := by
  refine ⟨?_, finderNext_ok_resume, ?_, ?_⟩
  · intro it p it2 h
    have hs := MmapFinderIter.next_some it p it2 h
    exact ⟨hs.1, hs.2.1⟩
  · intro fuel it
    exact (mmapPositionsAux_mono fuel it).2
  · intro a
    cases a <;> exact ⟨by decide, by decide, by decide, by decide⟩

/-- Claim C6 is refuted for the streaming finder (code bug): "every
overlapping occurrence is reported" fails as soon as the stream spans more
than one read.  On `"xxaaa"` with needle `"aa"` the occurrences are exactly
at 2 and 3; the mmap finder reports `[2, 3]`, and so does the streaming
finder when the whole stream fits in one read (buffer size 8); but with
buffer size 2 the streaming finder reports `[4, 5]` — the real occurrences
at 2 and 3 are never reported, because the advance branch
(`src/finder.rs` 172-178) adds the advance to both `haystack_pos` and
`buffer_pos` and the refill fold (lines 124-126) counts those bytes again. -/
theorem claim_C6_streaming_overlap_refuted :
    naive_search [120, 120, 97, 97, 97] [97, 97] = some 2 ∧
    matchAt [120, 120, 97, 97, 97] [97, 97] 2 ∧
    matchAt [120, 120, 97, 97, 97] [97, 97] 3 ∧
    ((List.range 5).filter
      (fun p => decide (matchAt [120, 120, 97, 97, 97] [97, 97] p))) =
      [2, 3] ∧
    mmapPositions ⟨[120, 120, 97, 97, 97], [97, 97]⟩ Algorithm.Naive =
      [2, 3] ∧
    finderRun (Finder.with_buffer_size [120, 120, 97, 97, 97]
      (fullSched [120, 120, 97, 97, 97]) [97, 97] 8 none) = [2, 3] ∧
    finderRun (Finder.with_buffer_size [120, 120, 97, 97, 97]
      (fullSched [120, 120, 97, 97, 97]) [97, 97] 2 none) = [4, 5] :=
  ⟨by decide, by decide, by decide, by decide, by decide, by decide,
   by decide⟩

/-- Claim C7: `find_all` always starts a fresh iterator at position 0 (so two
successive calls produce identical sequences); the head of its position
sequence is exactly `find_first`; the iteration yields nothing once the
remaining region is shorter than the needle; and on
`"hello world hello universe"` with `"hello"`, `find_first` returns 0 and
`find_all` yields `[0, 12]` for every algorithm. -/
theorem claim_C7_mmap_contract :
    (∀ (f : MmapFinder) (a : Algorithm),
      MmapFinder.find_all f a = ⟨f.mmap, f.needle, a, 0⟩) ∧
    (∀ (f : MmapFinder) (a : Algorithm), f.needle ≠ [] →
      (mmapPositions f a).head? = MmapFinder.find_first f a) ∧
    (∀ it : MmapFinderIter,
      it.haystack.length < it.pos + it.needle.length →
      (MmapFinderIter.next it).1 = none) ∧
    (∀ a : Algorithm,
      MmapFinder.find_first ⟨helloHay, helloNd⟩ a = some 0 ∧
      mmapPositions ⟨helloHay, helloNd⟩ a = [0, 12]) := by
  refine ⟨fun f a => rfl, mmap_find_first_eq_head, mmap_next_short, ?_⟩
  intro a
  cases a <;> exact ⟨by decide, by decide⟩

/-- Witness for C7: on the hello haystack the head of `find_all` equals
`find_first`, and a window shorter than the needle yields nothing. -/
theorem claim_C7_witness :
    (mmapPositions ⟨helloHay, helloNd⟩ Algorithm.Naive).head? =
      MmapFinder.find_first ⟨helloHay, helloNd⟩ Algorithm.Naive ∧
    (MmapFinderIter.next ⟨[1, 2], [1, 2, 3], Algorithm.Naive, 0⟩).1 = none := by
  constructor
  · exact claim_C7_mmap_contract.2.1 ⟨helloHay, helloNd⟩ Algorithm.Naive
      (by decide)
  · exact claim_C7_mmap_contract.2.2.1 ⟨[1, 2], [1, 2, 3], Algorithm.Naive, 0⟩
      (by decide)

/-- Claim C8: every construction entry point rejects the empty needle with the
empty-needle error, and the streaming constructors reject a buffer smaller
than the needle (explicitly, or via the default size in `new` and
`with_algorithm`) with the buffer-too-small error. -/
theorem claim_C8_construction_errors :
    (∀ (stream : List ℕ) (sched : ℕ → Option ℕ) (a : Option Algorithm),
      Finder.new stream sched [] a = Except.error FinderError.EmptyNeedle) ∧
    (∀ (stream : List ℕ) (sched : ℕ → Option ℕ) (bs : ℕ)
        (a : Option Algorithm),
      Finder.with_buffer_size stream sched [] bs a =
        Except.error FinderError.EmptyNeedle) ∧
    (∀ (stream : List ℕ) (sched : ℕ → Option ℕ) (a : Algorithm),
      Finder.with_algorithm stream sched [] a =
        Except.error FinderError.EmptyNeedle) ∧
    (∀ file : Option (List ℕ),
      MmapFinder.new file [] = Except.error MmapFinderError.EmptyNeedle) ∧
    (∀ m : List ℕ,
      MmapFinder.from_mmap m [] = Except.error MmapFinderError.EmptyNeedle) ∧
    (∀ (stream : List ℕ) (sched : ℕ → Option ℕ) (nd : List ℕ) (bs : ℕ)
        (a : Option Algorithm), nd ≠ [] → bs < nd.length →
      Finder.with_buffer_size stream sched nd bs a =
        Except.error FinderError.BufferTooSmall) ∧
    (∀ (stream : List ℕ) (sched : ℕ → Option ℕ) (nd : List ℕ)
        (a : Option Algorithm) (b : Algorithm),
      nd ≠ [] → DEFAULT_BUF_SIZE < nd.length →
      Finder.new stream sched nd a = Except.error FinderError.BufferTooSmall ∧
      Finder.with_algorithm stream sched nd b =
        Except.error FinderError.BufferTooSmall) := by
  refine ⟨?_, ?_, ?_, ?_, ?_, ?_, ?_⟩
  · intro stream sched a
    unfold Finder.new
    rw [if_pos rfl]
  · intro stream sched bs a
    unfold Finder.with_buffer_size
    rw [if_pos rfl]
  · intro stream sched a
    unfold Finder.with_algorithm
    rw [if_pos rfl]
  · intro file
    unfold MmapFinder.new
    rw [if_pos rfl]
  · intro m
    unfold MmapFinder.from_mmap
    rw [if_pos rfl]
  · intro stream sched nd bs a h1 h2
    unfold Finder.with_buffer_size
    rw [if_neg h1, if_pos h2]
  · intro stream sched nd a b h1 h2
    constructor
    · unfold Finder.new
      rw [if_neg h1, if_pos h2]
    · unfold Finder.with_algorithm
      rw [if_neg h1, if_pos h2]

/-- Witness for C8: a 2-byte needle with buffer size 1, and a needle one byte
longer than the default buffer via `new` and `with_algorithm`. -/
theorem claim_C8_witness :
    Finder.with_buffer_size [1] (chunkSched 1) [1, 2] 1 none =
      Except.error FinderError.BufferTooSmall ∧
    Finder.new [] (chunkSched 1) (List.replicate (DEFAULT_BUF_SIZE + 1) 97)
      none = Except.error FinderError.BufferTooSmall ∧
    Finder.with_algorithm [] (chunkSched 1)
      (List.replicate (DEFAULT_BUF_SIZE + 1) 97) Algorithm.Naive =
      Except.error FinderError.BufferTooSmall := by
  have hne : List.replicate (DEFAULT_BUF_SIZE + 1) 97 ≠ ([] : List ℕ) := by
    rw [List.replicate_succ]
    exact List.cons_ne_nil _ _
  have hlong : DEFAULT_BUF_SIZE <
      (List.replicate (DEFAULT_BUF_SIZE + 1) 97).length := by
    rw [List.length_replicate]
    omega
  refine ⟨?_, ?_, ?_⟩
  · exact claim_C8_construction_errors.2.2.2.2.2.1 [1] (chunkSched 1) [1, 2] 1
      none (by decide) (by decide)
  · exact (claim_C8_construction_errors.2.2.2.2.2.2 [] (chunkSched 1) _ none
      Algorithm.Naive hne hlong).1
  · exact (claim_C8_construction_errors.2.2.2.2.2.2 [] (chunkSched 1) _ none
      Algorithm.Naive hne hlong).2

/-- Claim C10 (implicit): every successful construction establishes the state
invariant `buffer_pos ≤ buffer_fill_len ≤ buffer.len()` with
`buffer.len() = requested + needle.len() - 1`, every `next()` call preserves
it, and under it both the searched slice
`buffer[buffer_pos..buffer_fill_len]` and the compaction copy of the last
`needle.len() - 1` bytes stay within the buffer's bounds. -/
theorem claim_C10_state_invariant :
    (∀ (stream : List ℕ) (sched : ℕ → Option ℕ) (nd : List ℕ) (bs : ℕ)
        (a : Option Algorithm) (st : FinderState),
      Finder.with_buffer_size stream sched nd bs a = Except.ok st →
        FinderInv st) ∧
    (∀ (stream : List ℕ) (sched : ℕ → Option ℕ) (nd : List ℕ)
        (a : Option Algorithm) (st : FinderState),
      Finder.new stream sched nd a = Except.ok st → FinderInv st) ∧
    (∀ (stream : List ℕ) (sched : ℕ → Option ℕ) (nd : List ℕ)
        (a : Algorithm) (st : FinderState),
      Finder.with_algorithm stream sched nd a = Except.ok st → FinderInv st) ∧
    (∀ (fuel : ℕ) (st : FinderState),
      FinderInv st → FinderInv (finderNext fuel st).2) ∧
    (∀ st : FinderState, FinderInv st →
      st.bufferPos + (st.bufferFillLen - st.bufferPos) ≤ st.buffer.length ∧
      st.bufferFillLen - (st.needle.length - 1) + (st.needle.length - 1) ≤
        st.buffer.length) := by
  refine ⟨with_buffer_size_ok_inv, new_ok_inv, with_algorithm_ok_inv,
    finderNext_inv, ?_⟩
  intro st h
  obtain ⟨h1, h2, h3, h4, h5⟩ := h
  constructor <;> omega

/-- Witness for C10: the invariant holds for a concrete constructed finder
and is preserved by a `next()` call on it. -/
theorem claim_C10_witness :
    FinderInv (finderState0 [97] (chunkSched 1) [97] 1 Algorithm.Naive) ∧
    FinderInv (finderNext 3
      (finderState0 [97] (chunkSched 1) [97] 1 Algorithm.Naive)).2 := by
  constructor
  · exact claim_C10_state_invariant.1 [97] (chunkSched 1) [97] 1 none _ rfl
  · exact claim_C10_state_invariant.2.2.2.1 3 _
      (claim_C10_state_invariant.1 [97] (chunkSched 1) [97] 1 none _ rfl)

end SimdNeedle
